import Mathlib

/-!
Shallow embedding of `src/simulation.py`: a discrete-event FIFO queueing
simulation of a three-station application processing system.

Durations and clocks are modelled over an arbitrary linear ordered field `α`
(instantiated at `ℚ` for executable witnesses and at `ℝ` for the scenario
involving `log 2`).  The external random library (`numpy.random`) is modelled
by a stream of uniform(0,1) draws `u : ℕ → α` together with the inverse-CDF
transform `negLog : α → α` standing for `x ↦ -log x`; the call
`exponential(scale)` of the source is modelled as `scale * negLog (next draw)`,
which is the inverse-CDF sampling the source itself uses in `poisson_process`
(`dt = -np.log(u)/lam`).  The float value `float("inf")` used as the sentinel
arrival is modelled by `none : Option α`.

The two `while` loops of the source (`poisson_process`'s sampling loop and the
drain loop in `main`) are embedded with explicit fuel, returning `none` when
the fuel is exhausted; every theorem about a finished run takes the shape
`... = some result`.
-/

namespace SPF

/-- The three stations: Fingerprint `"F"`, Case Review `"C"`, Interview `"W"`,
matching the keys of the `Servers` dictionary in `main` (in its iteration
order F, C, W). -/
inductive Station : Type
  | F
  | C
  | W
  deriving DecidableEq, Repr

/-- The external random source: `u k` is the `k`-th uniform(0,1) draw produced
by the library, and `negLog` is the library's `x ↦ -log x` transform used to
turn uniform draws into exponential variates. -/
structure Rng (α : Type) where
  u : ℕ → α
  negLog : α → α

variable {α : Type} [LinearOrderedField α]

/-- The call `exponential(scale)` of `numpy.random`, modelled by inverse-CDF sampling:
`scale * (-log U)` where `U` is the next uniform draw (index `k`). -/
def expDraw (scale : α) (rng : Rng α) (k : ℕ) : α :=
  scale * rng.negLog (rng.u k)

/-- The dictionary returned by `process_application`:
`stages` is the list of `[server name, service time]` pairs, `rejection` the
terminal disposition flag, `time_spent_total` the accumulated sojourn time. -/
structure Applicant (α : Type) where
  stages : List (Station × α)
  rejection : Bool
  time_spent_total : α
  deriving DecidableEq, Repr

/-- The `Servers` dictionary of `main`: one FIFO list per station. -/
structure Servers (α : Type) where
  F : List (Applicant α)
  C : List (Applicant α)
  W : List (Applicant α)
  deriving DecidableEq, Repr

/-- Lookup `Servers[name]`. -/
def Servers.get (sv : Servers α) : Station → List (Applicant α)
  | .F => sv.F
  | .C => sv.C
  | .W => sv.W

/-- Update `Servers[name] = q`. -/
def Servers.set (sv : Servers α) : Station → List (Applicant α) → Servers α
  | .F, q => { sv with F := q }
  | .C, q => { sv with C := q }
  | .W, q => { sv with W := q }

/-- All applicants currently resident in the system, in station order. -/
def Servers.apps (sv : Servers α) : List (Applicant α) :=
  sv.F ++ sv.C ++ sv.W

/-- The `Times` dictionary of `main`: sojourn times of completed (`"c"`) and
rejected (`"r"`) applications. -/
structure TimesRec (α : Type) where
  c : List α
  r : List α
  deriving DecidableEq, Repr

/-- Read `stages[0][1]`, the remaining service duration of the first stage.
The source would raise `IndexError` on an empty list; that case is
unreachable (queued applicants always have a non-empty stage plan), and the
total function returns `0` there. -/
def stageDur : List (Station × α) → α
  | [] => 0
  | (_, d) :: _ => d

/-- Read `Servers[name][0]["stages"][0][1]`: remaining duration of the head-of-line
applicant; `0` on an empty queue (unreachable in the source). -/
def headDur : List (Applicant α) → α
  | [] => 0
  | a :: _ => stageDur a.stages

/-- Read `stages[0][0]`: the station of the first stage (`Station.F` on an empty
plan, which is unreachable: `process_application` always returns at least one
stage). -/
def firstStation : List (Station × α) → Station
  | [] => .F
  | (s, _) :: _ => s

/-- Compare `d < g` where `g : Option α` is the current `time_till_applicant`,
`none` standing for the float `inf` of the sentinel arrival. -/
def ltGap (d : α) : Option α → Prop
  | none => True
  | some m => d < m

instance (d : α) : (g : Option α) → Decidable (ltGap d g)
  | none => .isTrue trivial
  | some m => inferInstanceAs (Decidable (d < m))

/-- One step of the minimum scan of lines 51-56 of the source: station `s`
with queue `q` challenges the current champion `(w, m)` (`w = none` meaning
`"time_till_applicant"`); a strictly smaller head duration takes over. -/
def scan1 (s : Station) (q : List (Applicant α)) :
    Option Station × Option α → Option Station × Option α
  | (w, m) =>
    match q with
    | [] => (w, m)
    | a :: _ => if ltGap (stageDur a.stages) m then (some s, some (stageDur a.stages)) else (w, m)

/-- The full minimum scan (`for name in Servers`, in dict order F, C, W),
returning the station whose head finishes strictly before the next arrival,
or `none` when `time_till_applicant` itself is minimal (the `break`). -/
def selectMin (sv : Servers α) (gap : Option α) : Option Station :=
  (scan1 .W sv.W (scan1 .C sv.C (scan1 .F sv.F (none, gap)))).1

/-- Line 67, `stages[0][1] -= d`: decrement the first stage's remaining
duration; identity on the empty plan (unreachable, `IndexError` in source). -/
def decHead (d : α) : List (Station × α) → List (Station × α)
  | [] => []
  | (s, t) :: rest => (s, t - d) :: rest

/-- Line 65, `time_spent_total += d`, for one applicant. -/
def bumpApp (d : α) (a : Applicant α) : Applicant α :=
  { a with time_spent_total := a.time_spent_total + d }

/-- Lines 64-67 for one station queue: every resident applicant accrues `d`
of wall-clock time, and only the head-of-line applicant (`i == 0`) has its
first-stage remaining duration decremented by `d`. -/
def tickQueue (d : α) : List (Applicant α) → List (Applicant α)
  | [] => []
  | a :: rest =>
      { a with time_spent_total := a.time_spent_total + d,
               stages := decHead d a.stages } :: rest.map (bumpApp d)

/-- Lines 63-67: the bookkeeping pass over all three station queues. -/
def tick (d : α) (sv : Servers α) : Servers α :=
  ⟨tickQueue d sv.F, tickQueue d sv.C, tickQueue d sv.W⟩

/-- Lines 79-82: record a finished applicant's total time into the bucket
matching its disposition. -/
def record (tm : TimesRec α) (a : Applicant α) : TimesRec α :=
  if a.rejection then { tm with r := tm.r ++ [a.time_spent_total] }
  else { tm with c := tm.c ++ [a.time_spent_total] }

/-- Lines 68-82: pop the completed stage and the head applicant off station
`s`, then either move the applicant to the tail of its next stage's station
or record its total time.  (The source indexes a non-empty queue here; the
empty case is unreachable and returned unchanged.) -/
def completeHead (s : Station) (sv : Servers α) (tm : TimesRec α) :
    Servers α × TimesRec α :=
  match sv.get s with
  | [] => (sv, tm)
  | a :: rest =>
      let a' : Applicant α := { a with stages := a.stages.tail }
      let sv' := sv.set s rest
      match a'.stages with
      | (nx, _) :: _ => (sv'.set nx (sv'.get nx ++ [a']), tm)
      | [] => (sv', record tm a')

/-- Line 44, `time_till_applicant = t - t_prev`; the sentinel `inf` minus a
finite value is `inf`. -/
def gapOf : Option α → α → Option α
  | some t, tp => some (t - tp)
  | none, _ => none

/-- Line 62, `time_till_applicant -= time_spent`. -/
def gapSub : Option α → α → Option α
  | none, _ => none
  | some g, d => some (g - d)

/-- The `while True` drain loop of lines 48-82, with explicit fuel (the loop
terminates in the source because each iteration pops one stage; `none` means
the fuel ran out). -/
def drain : ℕ → Option α → Servers α → TimesRec α → Option (Servers α × TimesRec α)
  | 0, _, _, _ => none
  | fuel + 1, gap, sv, tm =>
    match selectMin sv gap with
    | none => some (sv, tm)
    | some s =>
        let d := headDur (sv.get s)
        let res := completeHead s (tick d sv) tm
        drain fuel (gapSub gap d) res.1 res.2

/-- Lines 115-148, `process_application(muf, muc, muw, p, q, r)`, returning
the fresh applicant together with the new position in the draw stream.  Draws
are consumed in source order: the branch uniform first, then the service
exponential (in the first branch), and exponential-before-uniform in the
nested branches, exactly as in the source. -/
def process_application (muf muc muw p q r : α) (rng : Rng α) (n : ℕ) :
    Applicant α × ℕ :=
  if rng.u n < p then
    ({ stages := [(.F, expDraw (1 / muf) rng (n + 1))],
       rejection := false, time_spent_total := 0 }, n + 2)
  else
    let c := expDraw (1 / muc) rng (n + 1)
    if rng.u (n + 2) < q then
      ({ stages := [(.C, c), (.F, expDraw (1 / muf) rng (n + 3))],
         rejection := false, time_spent_total := 0 }, n + 4)
    else
      let w := expDraw (1 / muw) rng (n + 3)
      if rng.u (n + 4) < r then
        ({ stages := [(.C, c), (.W, w), (.F, expDraw (1 / muf) rng (n + 5))],
           rejection := false, time_spent_total := 0 }, n + 6)
      else
        ({ stages := [(.C, c), (.W, w)],
           rejection := true, time_spent_total := 0 }, n + 5)

/-- The per-replication mutable state of `main`'s inner loop. -/
structure SlotState (α : Type) where
  servers : Servers α
  times : TimesRec α
  t_prev : α
  n : ℕ
  deriving DecidableEq, Repr

/-- One iteration of `for t in applicant_arrival_times` (lines 42-87):
drain, then build and enqueue a new applicant.  Note that the source performs
the `process_application` call and the enqueue unconditionally — also for the
sentinel slot `t = none` (the appended `float("inf")`). -/
def slotStep (muf muc muw p q r : α) (rng : Rng α) (fuel : ℕ)
    (st : SlotState α) (t : Option α) : Option (SlotState α) :=
  match drain fuel (gapOf t st.t_prev) st.servers st.times with
  | none => none
  | some (sv, tm) =>
      let pa := process_application muf muc muw p q r rng st.n
      let a := pa.1
      some { servers := sv.set (firstStation a.stages) (sv.get (firstStation a.stages) ++ [a]),
             times := tm,
             t_prev := t.getD st.t_prev,
             n := pa.2 }

/-- The whole arrival loop over the slot list (real arrivals followed by the
sentinel). -/
def runSlots (muf muc muw p q r : α) (rng : Rng α) (fuel : ℕ) :
    SlotState α → List (Option α) → Option (SlotState α)
  | st, [] => some st
  | st, t :: rest =>
      match slotStep muf muc muw p q r rng fuel st t with
      | none => none
      | some st' => runSlots muf muc muw p q r rng fuel st' rest

/-- The sampling loop of `poisson_process` (lines 103-112), with fuel:
starting from time `t` and stream position `n`, repeatedly draw
`dt = -log(u)/lam`, advance, and keep the event if it lands before `T`. -/
def poisson_aux (lam T : α) (rng : Rng α) : ℕ → α → ℕ → Option (List α × ℕ)
  | 0, _, _ => none
  | fuel + 1, t, n =>
    if t < T then
      let dt := rng.negLog (rng.u n) / lam
      let t' := t + dt
      match poisson_aux lam T rng fuel t' (n + 1) with
      | none => none
      | some (rest, n') => some (if t' < T then t' :: rest else rest, n')
    else some ([], n)

/-- Lines 92-112, `poisson_process(lam, T)`. -/
def poisson_process (lam T : α) (rng : Rng α) (fuel n : ℕ) : Option (List α × ℕ) :=
  poisson_aux lam T rng fuel 0 n

/-- One replication of `main`'s outer loop (lines 33-87): sample the arrival
times, append the sentinel, and run the arrival loop starting from
`t_prev = 0` and empty servers; `tm` is the `Times` accumulator carried
across replications. -/
def replication (lam muf muc muw p q r T : α) (rng : Rng α) (fuel : ℕ)
    (tm : TimesRec α) (n : ℕ) : Option (SlotState α) :=
  match poisson_process lam T rng fuel n with
  | none => none
  | some (arrivals, n') =>
      runSlots muf muc muw p q r rng fuel
        { servers := ⟨[], [], []⟩, times := tm, t_prev := 0, n := n' }
        (arrivals.map some ++ [none])

/-- The `for _ in range(K)` loop of `main`. -/
def mainAux (lam muf muc muw p q r T : α) (rng : Rng α) (fuel : ℕ) :
    ℕ → TimesRec α → ℕ → Option (TimesRec α × ℕ)
  | 0, tm, n => some (tm, n)
  | K + 1, tm, n =>
      match replication lam muf muc muw p q r T rng fuel tm n with
      | none => none
      | some st => mainAux lam muf muc muw p q r T rng fuel K st.times st.n

/-- Lines 9-89, `main(K, lam, muf, muc, muw, p, q, r, T)`: run `K`
replications and return the accumulated `Times`. -/
def main (K : ℕ) (lam muf muc muw p q r T : α) (rng : Rng α) (fuel : ℕ) :
    Option (TimesRec α) :=
  (mainAux lam muf muc muw p q r T rng fuel K ⟨[], []⟩ 0).map Prod.fst

/-! ### Instrumented (ghost) variant

The following definitions are an instrumented copy of the engine above, used
only to *state and prove* bookkeeping properties.  Each ghost applicant
additionally carries `origSum`, the sum of the service durations drawn for it
at creation time (a value the source never stores), the outcome buckets
record `(time_spent_total, origSum)` pairs, and the per-replication state
counts how many applicants `process_application` has built and enqueued.
Erasing the ghost data recovers the plain engine exactly (proved below). -/

/-- Sum of the remaining durations of a stage plan. -/
def sumDur (stages : List (Station × α)) : α :=
  (stages.map Prod.snd).sum

/-- Ghost applicant: the source's record plus the creation-time total
`origSum` of its drawn service durations. -/
structure GApplicant (α : Type) where
  stages : List (Station × α)
  rejection : Bool
  time_spent_total : α
  origSum : α
  deriving DecidableEq, Repr

/-- Drop the ghost field. -/
def eraseApp (a : GApplicant α) : Applicant α :=
  ⟨a.stages, a.rejection, a.time_spent_total⟩

structure GServers (α : Type) where
  F : List (GApplicant α)
  C : List (GApplicant α)
  W : List (GApplicant α)
  deriving DecidableEq, Repr

def GServers.get (sv : GServers α) : Station → List (GApplicant α)
  | .F => sv.F
  | .C => sv.C
  | .W => sv.W

def GServers.set (sv : GServers α) : Station → List (GApplicant α) → GServers α
  | .F, q => { sv with F := q }
  | .C, q => { sv with C := q }
  | .W, q => { sv with W := q }

def GServers.apps (sv : GServers α) : List (GApplicant α) :=
  sv.F ++ sv.C ++ sv.W

def eraseServers (sv : GServers α) : Servers α :=
  ⟨sv.F.map eraseApp, sv.C.map eraseApp, sv.W.map eraseApp⟩

/-- Outcome buckets of `(time_spent_total, origSum)` pairs. -/
structure GTimes (α : Type) where
  c : List (α × α)
  r : List (α × α)
  deriving DecidableEq, Repr

def eraseTimes (tm : GTimes α) : TimesRec α :=
  ⟨tm.c.map Prod.fst, tm.r.map Prod.fst⟩

def gheadDur : List (GApplicant α) → α
  | [] => 0
  | a :: _ => stageDur a.stages

def gtickQueue (d : α) : List (GApplicant α) → List (GApplicant α)
  | [] => []
  | a :: rest =>
      { a with time_spent_total := a.time_spent_total + d,
               stages := decHead d a.stages } ::
        rest.map (fun b => { b with time_spent_total := b.time_spent_total + d })

def gtick (d : α) (sv : GServers α) : GServers α :=
  ⟨gtickQueue d sv.F, gtickQueue d sv.C, gtickQueue d sv.W⟩

def grecord (tm : GTimes α) (a : GApplicant α) : GTimes α :=
  if a.rejection then { tm with r := tm.r ++ [(a.time_spent_total, a.origSum)] }
  else { tm with c := tm.c ++ [(a.time_spent_total, a.origSum)] }

def gcompleteHead (s : Station) (sv : GServers α) (tm : GTimes α) :
    GServers α × GTimes α :=
  match sv.get s with
  | [] => (sv, tm)
  | a :: rest =>
      let a' : GApplicant α := { a with stages := a.stages.tail }
      let sv' := sv.set s rest
      match a'.stages with
      | (nx, _) :: _ => (sv'.set nx (sv'.get nx ++ [a']), tm)
      | [] => (sv', grecord tm a')

/-- Ghost drain loop; the next-event selection is computed on the erased
servers with the plain `selectMin` (the ghost field plays no role in it). -/
def gdrain : ℕ → Option α → GServers α → GTimes α → Option (GServers α × GTimes α)
  | 0, _, _, _ => none
  | fuel + 1, gap, sv, tm =>
    match selectMin (eraseServers sv) gap with
    | none => some (sv, tm)
    | some s =>
        let d := gheadDur (sv.get s)
        let res := gcompleteHead s (gtick d sv) tm
        gdrain fuel (gapSub gap d) res.1 res.2

/-- Ghost `process_application`: same draws and result as the plain one, with
`origSum` set to the sum of the drawn stage durations. -/
def gprocess_application (muf muc muw p q r : α) (rng : Rng α) (n : ℕ) :
    GApplicant α × ℕ :=
  let pa := process_application muf muc muw p q r rng n
  ({ stages := pa.1.stages, rejection := pa.1.rejection,
     time_spent_total := pa.1.time_spent_total,
     origSum := sumDur pa.1.stages }, pa.2)

structure GSlotState (α : Type) where
  servers : GServers α
  times : GTimes α
  t_prev : α
  n : ℕ
  created : ℕ
  deriving DecidableEq, Repr

def eraseState (st : GSlotState α) : SlotState α :=
  ⟨eraseServers st.servers, eraseTimes st.times, st.t_prev, st.n⟩

def gslotStep (muf muc muw p q r : α) (rng : Rng α) (fuel : ℕ)
    (st : GSlotState α) (t : Option α) : Option (GSlotState α) :=
  match gdrain fuel (gapOf t st.t_prev) st.servers st.times with
  | none => none
  | some (sv, tm) =>
      let pa := gprocess_application muf muc muw p q r rng st.n
      let a := pa.1
      some { servers := sv.set (firstStation a.stages) (sv.get (firstStation a.stages) ++ [a]),
             times := tm,
             t_prev := t.getD st.t_prev,
             n := pa.2,
             created := st.created + 1 }

def grunSlots (muf muc muw p q r : α) (rng : Rng α) (fuel : ℕ) :
    GSlotState α → List (Option α) → Option (GSlotState α)
  | st, [] => some st
  | st, t :: rest =>
      match gslotStep muf muc muw p q r rng fuel st t with
      | none => none
      | some st' => grunSlots muf muc muw p q r rng fuel st' rest

def greplication (lam muf muc muw p q r T : α) (rng : Rng α) (fuel : ℕ)
    (tm : GTimes α) (n created : ℕ) : Option (GSlotState α) :=
  match poisson_process lam T rng fuel n with
  | none => none
  | some (arrivals, n') =>
      grunSlots muf muc muw p q r rng fuel
        { servers := ⟨[], [], []⟩, times := tm, t_prev := 0, n := n', created := created }
        (arrivals.map some ++ [none])

def gmainAux (lam muf muc muw p q r T : α) (rng : Rng α) (fuel : ℕ) :
    ℕ → GTimes α → ℕ → ℕ → Option (GTimes α × ℕ × ℕ)
  | 0, tm, n, created => some (tm, n, created)
  | K + 1, tm, n, created =>
      match greplication lam muf muc muw p q r T rng fuel tm n created with
      | none => none
      | some st => gmainAux lam muf muc muw p q r T rng fuel K st.times st.n st.created

/-- Ghost `main`: returns the bucket pairs together with the total number of
applicants built by `process_application` and enqueued, over all
replications. -/
def gmain (K : ℕ) (lam muf muc muw p q r T : α) (rng : Rng α) (fuel : ℕ) :
    Option (GTimes α × ℕ) :=
  (gmainAux lam muf muc muw p q r T rng fuel K ⟨[], []⟩ 0 0).map
    fun pr => (pr.1, pr.2.2)

/-! ### Erasure: the ghost engine projects onto the plain engine -/

@[simp] lemma eraseApp_stages (a : GApplicant α) : (eraseApp a).stages = a.stages := rfl

@[simp] lemma eraseApp_rejection (a : GApplicant α) :
    (eraseApp a).rejection = a.rejection := rfl

@[simp] lemma eraseApp_time (a : GApplicant α) :
    (eraseApp a).time_spent_total = a.time_spent_total := rfl

@[simp] lemma eraseServers_get (sv : GServers α) (s : Station) :
    (eraseServers sv).get s = (sv.get s).map eraseApp := by
  cases s <;> rfl

lemma eraseServers_set (sv : GServers α) (s : Station) (q : List (GApplicant α)) :
    (eraseServers sv).set s (q.map eraseApp) = eraseServers (sv.set s q) := by
  cases s <;> rfl

lemma headDur_map_erase (q : List (GApplicant α)) :
    headDur (q.map eraseApp) = gheadDur q := by
  cases q <;> rfl

lemma tickQueue_erase (d : α) (q : List (GApplicant α)) :
    tickQueue d (q.map eraseApp) = (gtickQueue d q).map eraseApp := by
  cases q with
  | nil => rfl
  | cons a rest =>
      simp only [List.map_cons, tickQueue, gtickQueue, List.map_map]
      rfl

lemma tick_erase (d : α) (sv : GServers α) :
    tick d (eraseServers sv) = eraseServers (gtick d sv) := by
  simp only [tick, gtick, eraseServers, tickQueue_erase]

lemma record_erase (tm : GTimes α) (a : GApplicant α) :
    record (eraseTimes tm) (eraseApp a) = eraseTimes (grecord tm a) := by
  by_cases h : a.rejection = true <;>
    simp [record, grecord, eraseTimes, h]

lemma completeHead_nil {s : Station} {sv : Servers α} (tm : TimesRec α)
    (h : sv.get s = []) : completeHead s sv tm = (sv, tm) := by
  unfold completeHead; rw [h]

lemma completeHead_cons_move {s : Station} {sv : Servers α} (tm : TimesRec α)
    {a : Applicant α} {rest : List (Applicant α)} {nx : Station} {dd : α}
    {rest2 : List (Station × α)}
    (h : sv.get s = a :: rest) (ht : a.stages.tail = (nx, dd) :: rest2) :
    completeHead s sv tm =
      ((sv.set s rest).set nx
        ((sv.set s rest).get nx ++ [{ a with stages := a.stages.tail }]), tm) := by
  unfold completeHead
  rw [h]
  simp only [ht]

lemma completeHead_cons_rec {s : Station} {sv : Servers α} (tm : TimesRec α)
    {a : Applicant α} {rest : List (Applicant α)}
    (h : sv.get s = a :: rest) (ht : a.stages.tail = []) :
    completeHead s sv tm =
      (sv.set s rest, record tm { a with stages := a.stages.tail }) := by
  unfold completeHead
  rw [h]
  simp only [ht]

lemma gcompleteHead_nil {s : Station} {sv : GServers α} (tm : GTimes α)
    (h : sv.get s = []) : gcompleteHead s sv tm = (sv, tm) := by
  unfold gcompleteHead; rw [h]

lemma gcompleteHead_cons_move {s : Station} {sv : GServers α} (tm : GTimes α)
    {a : GApplicant α} {rest : List (GApplicant α)} {nx : Station} {dd : α}
    {rest2 : List (Station × α)}
    (h : sv.get s = a :: rest) (ht : a.stages.tail = (nx, dd) :: rest2) :
    gcompleteHead s sv tm =
      ((sv.set s rest).set nx
        ((sv.set s rest).get nx ++ [{ a with stages := a.stages.tail }]), tm) := by
  unfold gcompleteHead
  rw [h]
  simp only [ht]

lemma gcompleteHead_cons_rec {s : Station} {sv : GServers α} (tm : GTimes α)
    {a : GApplicant α} {rest : List (GApplicant α)}
    (h : sv.get s = a :: rest) (ht : a.stages.tail = []) :
    gcompleteHead s sv tm =
      (sv.set s rest, grecord tm { a with stages := a.stages.tail }) := by
  unfold gcompleteHead
  rw [h]
  simp only [ht]

lemma completeHead_erase (s : Station) (sv : GServers α) (tm : GTimes α) :
    completeHead s (eraseServers sv) (eraseTimes tm) =
      (eraseServers (gcompleteHead s sv tm).1, eraseTimes (gcompleteHead s sv tm).2) := by
  cases hq : sv.get s with
  | nil =>
      have hq' : (eraseServers sv).get s = [] := by rw [eraseServers_get, hq]; rfl
      rw [completeHead_nil _ hq', gcompleteHead_nil _ hq]
  | cons a rest =>
      have hq' : (eraseServers sv).get s = eraseApp a :: rest.map eraseApp := by
        rw [eraseServers_get, hq]; rfl
      have hta : (eraseApp a).stages.tail = a.stages.tail := rfl
      rcases ht : a.stages.tail with _ | ⟨⟨nx, dd⟩, rest2⟩
      · rw [completeHead_cons_rec _ hq' (hta.trans ht), gcompleteHead_cons_rec _ hq ht]
        have h1 : ({ eraseApp a with stages := (eraseApp a).stages.tail } : Applicant α) =
            eraseApp { a with stages := a.stages.tail } := rfl
        rw [h1, eraseServers_set, record_erase]
      · rw [completeHead_cons_move _ hq' (hta.trans ht), gcompleteHead_cons_move _ hq ht]
        have h1 : ({ eraseApp a with stages := (eraseApp a).stages.tail } : Applicant α) =
            eraseApp { a with stages := a.stages.tail } := rfl
        rw [h1, eraseServers_set, eraseServers_get]
        have h2 : List.map eraseApp ((sv.set s rest).get nx) ++
            [eraseApp { a with stages := a.stages.tail }] =
            List.map eraseApp ((sv.set s rest).get nx ++ [{ a with stages := a.stages.tail }]) := by
          rw [List.map_append]; rfl
        rw [h2, eraseServers_set]

lemma drain_erase (fuel : ℕ) (gap : Option α) (sv : GServers α) (tm : GTimes α) :
    drain fuel gap (eraseServers sv) (eraseTimes tm) =
      (gdrain fuel gap sv tm).map fun pr => (eraseServers pr.1, eraseTimes pr.2) := by
  induction fuel generalizing gap sv tm with
  | zero => rfl
  | succ fuel ih =>
      simp only [drain, gdrain]
      cases hsel : selectMin (eraseServers sv) gap with
      | none => rfl
      | some s =>
          simp only [eraseServers_get, headDur_map_erase, tick_erase, completeHead_erase]
          exact ih _ _ _

lemma gprocess_fst (muf muc muw p q r : α) (rng : Rng α) (n : ℕ) :
    eraseApp (gprocess_application muf muc muw p q r rng n).1 =
      (process_application muf muc muw p q r rng n).1 := rfl

lemma gprocess_snd (muf muc muw p q r : α) (rng : Rng α) (n : ℕ) :
    (gprocess_application muf muc muw p q r rng n).2 =
      (process_application muf muc muw p q r rng n).2 := rfl

lemma slotStep_erase (muf muc muw p q r : α) (rng : Rng α) (fuel : ℕ)
    (st : GSlotState α) (t : Option α) :
    slotStep muf muc muw p q r rng fuel (eraseState st) t =
      (gslotStep muf muc muw p q r rng fuel st t).map eraseState := by
  unfold slotStep gslotStep
  simp only [eraseState, drain_erase]
  cases gdrain fuel (gapOf t st.t_prev) st.servers st.times with
  | none => rfl
  | some pr =>
      have h2 : ∀ (gsv : GServers α) (ga : GApplicant α),
          (eraseServers gsv).set (firstStation ga.stages)
            ((eraseServers gsv).get (firstStation ga.stages) ++ [eraseApp ga]) =
          eraseServers (gsv.set (firstStation ga.stages)
            (gsv.get (firstStation ga.stages) ++ [ga])) := by
        intro gsv ga
        rw [eraseServers_get]
        have h3 : List.map eraseApp (gsv.get (firstStation ga.stages)) ++ [eraseApp ga] =
            List.map eraseApp (gsv.get (firstStation ga.stages) ++ [ga]) := by
          rw [List.map_append]; rfl
        rw [h3, eraseServers_set]
      simp only [Option.map_some, Option.map_some', ← gprocess_fst, ← gprocess_snd,
        eraseApp_stages, h2]
      rfl

lemma runSlots_erase (muf muc muw p q r : α) (rng : Rng α) (fuel : ℕ)
    (st : GSlotState α) (slots : List (Option α)) :
    runSlots muf muc muw p q r rng fuel (eraseState st) slots =
      (grunSlots muf muc muw p q r rng fuel st slots).map eraseState := by
  induction slots generalizing st with
  | nil => rfl
  | cons t rest ih =>
      simp only [runSlots, grunSlots, slotStep_erase]
      cases gslotStep muf muc muw p q r rng fuel st t with
      | none => rfl
      | some st' => exact ih st'

lemma replication_erase (lam muf muc muw p q r T : α) (rng : Rng α) (fuel : ℕ)
    (tm : GTimes α) (n created : ℕ) :
    replication lam muf muc muw p q r T rng fuel (eraseTimes tm) n =
      (greplication lam muf muc muw p q r T rng fuel tm n created).map eraseState := by
  unfold replication greplication
  cases poisson_process lam T rng fuel n with
  | none => rfl
  | some pr =>
      obtain ⟨arrivals, n'⟩ := pr
      have h1 : ({ servers := ⟨[], [], []⟩, times := eraseTimes tm, t_prev := 0, n := n' } :
          SlotState α) = eraseState ⟨⟨[], [], []⟩, tm, 0, n', created⟩ := rfl
      show runSlots muf muc muw p q r rng fuel
          { servers := ⟨[], [], []⟩, times := eraseTimes tm, t_prev := 0, n := n' }
          (arrivals.map some ++ [none]) = _
      rw [h1, runSlots_erase]

lemma mainAux_erase (lam muf muc muw p q r T : α) (rng : Rng α) (fuel : ℕ)
    (K : ℕ) (tm : GTimes α) (n created : ℕ) :
    mainAux lam muf muc muw p q r T rng fuel K (eraseTimes tm) n =
      (gmainAux lam muf muc muw p q r T rng fuel K tm n created).map
        fun pr => (eraseTimes pr.1, pr.2.1) := by
  induction K generalizing tm n created with
  | zero => rfl
  | succ K ih =>
      simp only [mainAux, gmainAux,
        replication_erase lam muf muc muw p q r T rng fuel tm n created]
      cases greplication lam muf muc muw p q r T rng fuel tm n created with
      | none => rfl
      | some st => exact ih st.times st.n st.created

/-- The function `main` is the erasure of the ghost run. -/
lemma main_erase (K : ℕ) (lam muf muc muw p q r T : α) (rng : Rng α) (fuel : ℕ) :
    main K lam muf muc muw p q r T rng fuel =
      (gmain K lam muf muc muw p q r T rng fuel).map fun pr => eraseTimes pr.1 := by
  unfold main gmain
  have h0 : (⟨[], []⟩ : TimesRec α) = eraseTimes (⟨[], []⟩ : GTimes α) := rfl
  rw [h0, mainAux_erase lam muf muc muw p q r T rng fuel K ⟨[], []⟩ 0 0]
  cases gmainAux lam muf muc muw p q r T rng fuel K ⟨[], []⟩ 0 0 <;> rfl

/-! ### Specification of the minimum scan -/

lemma ltGap_trans {d v : α} {gap : Option α} (h1 : d < v) (h2 : ltGap v gap) :
    ltGap d gap := by
  cases gap with
  | none => trivial
  | some g => exact lt_trans h1 h2

lemma le_of_not_ltGap_of_ltGap {d v : α} {gap : Option α}
    (h1 : ¬ ltGap v gap) (h2 : ltGap d gap) : d ≤ v := by
  cases gap with
  | none => exact absurd trivial h1
  | some g => exact le_trans (le_of_lt h2) (not_lt.mp h1)

/-- Invariant of the running champion `(w, m)` of the minimum scan after the
stations in `seen` have been examined against the initial gap. -/
def ScanInv (sv : Servers α) (gap : Option α) (seen : List Station)
    (st : Option Station × Option α) : Prop :=
  (st.1 = none → st.2 = gap ∧
    ∀ s' ∈ seen, sv.get s' ≠ [] → ¬ ltGap (headDur (sv.get s')) gap) ∧
  (∀ s₀, st.1 = some s₀ → sv.get s₀ ≠ [] ∧ st.2 = some (headDur (sv.get s₀)) ∧
    ltGap (headDur (sv.get s₀)) gap ∧
    ∀ s' ∈ seen, sv.get s' ≠ [] → headDur (sv.get s₀) ≤ headDur (sv.get s'))

lemma scanInv_init (sv : Servers α) (gap : Option α) :
    ScanInv sv gap [] (none, gap) := by
  refine ⟨fun _ => ⟨rfl, by simp⟩, fun s₀ h => by simp at h⟩

lemma scanInv_step {sv : Servers α} {gap : Option α} {seen : List Station}
    {st : Option Station × Option α} (h : ScanInv sv gap seen st) (s : Station) :
    ScanInv sv gap (seen ++ [s]) (scan1 s (sv.get s) st) := by
  obtain ⟨w, m⟩ := st
  obtain ⟨hA, hB⟩ := h
  simp only [] at hA hB
  cases hq : sv.get s with
  | nil =>
      simp only [scan1]
      constructor
      · intro hw
        obtain ⟨hm, hseen⟩ := hA hw
        refine ⟨hm, fun s' hs' hne => ?_⟩
        rcases List.mem_append.mp hs' with h' | h'
        · exact hseen s' h' hne
        · simp at h'; subst h'; exact absurd hq hne
      · intro s₀ hw
        obtain ⟨hne, hm, hlt, hmin⟩ := hB s₀ hw
        refine ⟨hne, hm, hlt, fun s' hs' hne' => ?_⟩
        rcases List.mem_append.mp hs' with h' | h'
        · exact hmin s' h' hne'
        · simp at h'; subst h'; exact absurd hq hne'
  | cons a t =>
      have hhd : headDur (sv.get s) = stageDur a.stages := by rw [hq]; rfl
      simp only [scan1]
      by_cases hc : ltGap (stageDur a.stages) m
      · rw [if_pos hc]
        constructor
        · intro hw; simp at hw
        · intro s₀ hw
          simp only [Option.some.injEq] at hw
          subst hw
          have hlt : ltGap (stageDur a.stages) gap := by
            cases hw' : w with
            | none =>
                obtain ⟨hm, _⟩ := hA hw'
                rw [hm] at hc; exact hc
            | some s₁ =>
                obtain ⟨_, hm, hlt1, _⟩ := hB s₁ hw'
                rw [hm] at hc
                exact ltGap_trans hc hlt1
          refine ⟨by rw [hq]; simp, by rw [hhd], by rw [hhd]; exact hlt,
            fun s' hs' hne' => ?_⟩
          rcases List.mem_append.mp hs' with h' | h'
          · cases hw' : w with
            | none =>
                obtain ⟨hm, hseen⟩ := hA hw'
                have := hseen s' h' hne'
                rw [hhd]
                exact le_of_not_ltGap_of_ltGap this hlt
            | some s₁ =>
                obtain ⟨_, hm, _, hmin⟩ := hB s₁ hw'
                rw [hm] at hc
                rw [hhd]
                exact le_trans (le_of_lt hc) (hmin s' h' hne')
          · simp at h'; subst h'; rw [hhd]
      · rw [if_neg hc]
        constructor
        · intro hw
          obtain ⟨hm, hseen⟩ := hA hw
          refine ⟨hm, fun s' hs' hne' => ?_⟩
          rcases List.mem_append.mp hs' with h' | h'
          · exact hseen s' h' hne'
          · simp at h'; subst h'
            rw [hhd]
            rw [hm] at hc
            exact hc
        · intro s₀ hw
          obtain ⟨hne, hm, hlt, hmin⟩ := hB s₀ hw
          refine ⟨hne, hm, hlt, fun s' hs' hne' => ?_⟩
          rcases List.mem_append.mp hs' with h' | h'
          · exact hmin s' h' hne'
          · simp at h'; subst h'
            rw [hm] at hc
            rw [hhd]
            exact not_lt.mp hc

/-- The station returned by the minimum scan is non-empty, its head finishes
strictly before the next arrival, and its head's remaining duration is
minimal among all non-empty stations. -/
lemma selectMin_spec {sv : Servers α} {gap : Option α} {s : Station}
    (h : selectMin sv gap = some s) :
    sv.get s ≠ [] ∧ ltGap (headDur (sv.get s)) gap ∧
      ∀ s', sv.get s' ≠ [] → headDur (sv.get s) ≤ headDur (sv.get s') := by
  have hF : ScanInv sv gap ([] ++ [.F]) (scan1 .F (sv.get .F) (none, gap)) :=
    scanInv_step (scanInv_init sv gap) .F
  have hC := scanInv_step hF .C
  have hW := scanInv_step hC .W
  have hsel : (scan1 .W (sv.get .W) (scan1 .C (sv.get .C)
      (scan1 .F (sv.get .F) (none, gap)))).1 = some s := h
  obtain ⟨hne, _, hlt, hmin⟩ := hW.2 s hsel
  refine ⟨hne, hlt, fun s' hne' => hmin s' ?_ hne'⟩
  cases s' <;> simp

/-- When the scan selects no station, every non-empty station's head duration
is at least the gap. -/
lemma selectMin_none {sv : Servers α} {gap : Option α}
    (h : selectMin sv gap = none) :
    ∀ s', sv.get s' ≠ [] → ¬ ltGap (headDur (sv.get s')) gap := by
  have hF : ScanInv sv gap ([] ++ [.F]) (scan1 .F (sv.get .F) (none, gap)) :=
    scanInv_step (scanInv_init sv gap) .F
  have hC := scanInv_step hF .C
  have hW := scanInv_step hC .W
  have hsel : (scan1 .W (sv.get .W) (scan1 .C (sv.get .C)
      (scan1 .F (sv.get .F) (none, gap)))).1 = none := h
  obtain ⟨_, hall⟩ := hW.1 hsel
  intro s' hne
  exact hall s' (by cases s' <;> simp) hne

/-! ### Residence bookkeeping: how the engine steps transform the resident
applicants -/

lemma get_mem_apps {sv : Servers α} {s : Station} {a : Applicant α}
    (h : a ∈ sv.get s) : a ∈ sv.apps := by
  cases s <;> simp [Servers.get, Servers.apps] at h ⊢ <;> tauto

lemma set_mem_apps {sv : Servers α} {s : Station} {q : List (Applicant α)}
    {a : Applicant α} (h : a ∈ (sv.set s q).apps) : a ∈ q ∨ a ∈ sv.apps := by
  cases s <;> simp [Servers.set, Servers.apps] at h ⊢ <;> tauto

lemma mem_tick_apps {d : α} {sv : Servers α} {a : Applicant α} :
    a ∈ (tick d sv).apps ↔
      a ∈ tickQueue d sv.F ∨ a ∈ tickQueue d sv.C ∨ a ∈ tickQueue d sv.W := by
  simp [tick, Servers.apps, or_assoc]

lemma tickQueue_rej {d : α} {q : List (Applicant α)}
    (h : ∀ b ∈ q, b.rejection = false) :
    ∀ a ∈ tickQueue d q, a.rejection = false := by
  intro a ha
  cases q with
  | nil => simp [tickQueue] at ha
  | cons b t =>
      simp only [tickQueue, List.mem_cons] at ha
      rcases ha with rfl | ha
      · exact h b (by simp)
      · obtain ⟨b', hb', rfl⟩ := List.mem_map.mp ha
        exact h b' (by simp [hb'])

lemma tick_rej {d : α} {sv : Servers α}
    (h : ∀ a ∈ sv.apps, a.rejection = false) :
    ∀ a ∈ (tick d sv).apps, a.rejection = false := by
  intro a ha
  rcases mem_tick_apps.mp ha with h' | h' | h'
  · exact tickQueue_rej (fun b hb => h b (by simp [Servers.apps, hb])) a h'
  · exact tickQueue_rej (fun b hb => h b (by simp [Servers.apps, hb])) a h'
  · exact tickQueue_rej (fun b hb => h b (by simp [Servers.apps, hb])) a h'

lemma tickQueue_durs {d : α} {q : List (Applicant α)}
    (hmin : q ≠ [] → d ≤ headDur q)
    (h : ∀ b ∈ q, ∀ st ∈ b.stages, 0 ≤ st.2) :
    ∀ a ∈ tickQueue d q, ∀ st ∈ a.stages, 0 ≤ st.2 := by
  intro a ha st hst
  cases q with
  | nil => simp [tickQueue] at ha
  | cons b t =>
      simp only [tickQueue, List.mem_cons] at ha
      rcases ha with rfl | ha
      · have hst' : st ∈ decHead d b.stages := hst
        cases hbs : b.stages with
        | nil => rw [hbs] at hst'; simp [decHead] at hst'
        | cons s0 rest =>
            obtain ⟨s0n, d0⟩ := s0
            rw [hbs] at hst'
            simp only [decHead, List.mem_cons] at hst'
            rcases hst' with rfl | hst'
            · have h1 : d ≤ headDur (b :: t) := hmin (by simp)
              have h2 : headDur (b :: t) = d0 := by simp [headDur, hbs, stageDur]
              rw [h2] at h1
              simpa using sub_nonneg.mpr h1
            · exact h b (by simp) _ (by rw [hbs]; exact List.mem_cons_of_mem _ hst')
      · obtain ⟨b', hb', rfl⟩ := List.mem_map.mp ha
        exact h b' (by simp [hb']) st hst

lemma tick_durs {d : α} {sv : Servers α}
    (hmin : ∀ s, sv.get s ≠ [] → d ≤ headDur (sv.get s))
    (h : ∀ a ∈ sv.apps, ∀ st ∈ a.stages, 0 ≤ st.2) :
    ∀ a ∈ (tick d sv).apps, ∀ st ∈ a.stages, 0 ≤ st.2 := by
  intro a ha
  rcases mem_tick_apps.mp ha with h' | h' | h'
  · exact tickQueue_durs (hmin .F) (fun b hb => h b (get_mem_apps hb)) a h'
  · exact tickQueue_durs (hmin .C) (fun b hb => h b (get_mem_apps hb)) a h'
  · exact tickQueue_durs (hmin .W) (fun b hb => h b (get_mem_apps hb)) a h'

lemma completeHead_apps {s : Station} {sv : Servers α} {tm : TimesRec α} :
    ∀ a ∈ (completeHead s sv tm).1.apps,
      a ∈ sv.apps ∨ ∃ b ∈ sv.apps, a = { b with stages := b.stages.tail } := by
  intro a ha
  cases hq : sv.get s with
  | nil => rw [completeHead_nil _ hq] at ha; exact Or.inl ha
  | cons b rest =>
      have hbmem : b ∈ sv.apps := get_mem_apps (s := s) (by rw [hq]; simp)
      have hrest : ∀ x ∈ rest, x ∈ sv.apps := fun x hx =>
        get_mem_apps (s := s) (by rw [hq]; simp [hx])
      have hset : ∀ x, x ∈ (sv.set s rest).apps → x ∈ sv.apps := fun x hx => by
        rcases set_mem_apps hx with h' | h'
        · exact hrest x h'
        · exact h'
      rcases ht : b.stages.tail with _ | ⟨⟨nx, dd⟩, rest2⟩
      · rw [completeHead_cons_rec _ hq ht] at ha
        exact Or.inl (hset a ha)
      · rw [completeHead_cons_move _ hq ht] at ha
        rcases set_mem_apps ha with h' | h'
        · rcases List.mem_append.mp h' with h'' | h''
          · exact Or.inl (hset a (get_mem_apps h''))
          · simp only [List.mem_singleton] at h''
            subst h''
            exact Or.inr ⟨b, hbmem, rfl⟩
        · exact Or.inl (hset a h')

lemma completeHead_times {s : Station} {sv : Servers α} {tm : TimesRec α} :
    (completeHead s sv tm).2 = tm ∨
      ∃ b ∈ sv.apps, b.stages.tail = [] ∧
        (completeHead s sv tm).2 = record tm { b with stages := b.stages.tail } := by
  cases hq : sv.get s with
  | nil => rw [completeHead_nil _ hq]; exact Or.inl rfl
  | cons b rest =>
      have hbmem : b ∈ sv.apps := get_mem_apps (s := s) (by rw [hq]; simp)
      rcases ht : b.stages.tail with _ | ⟨⟨nx, dd⟩, rest2⟩
      · exact Or.inr ⟨b, hbmem, ht, by rw [completeHead_cons_rec _ hq ht]⟩
      · rw [completeHead_cons_move _ hq ht]
        exact Or.inl rfl

lemma mem_of_mem_tail {β : Type _} {l : List β} {x : β} (h : x ∈ l.tail) : x ∈ l := by
  cases l with
  | nil => simp at h
  | cons y t => exact List.mem_cons_of_mem _ h

lemma record_r_of_false {tm : TimesRec α} {a : Applicant α}
    (h : a.rejection = false) : (record tm a).r = tm.r := by
  simp [record, h]

/-- Disposition invariant through the drain loop: if no resident applicant is
marked rejected, none is after draining, and nothing is recorded into the
rejected bucket. -/
lemma drain_rej {fuel : ℕ} {gap : Option α} {sv sv' : Servers α} {tm tm' : TimesRec α}
    (hinv : ∀ a ∈ sv.apps, a.rejection = false)
    (h : drain fuel gap sv tm = some (sv', tm')) :
    (∀ a ∈ sv'.apps, a.rejection = false) ∧ tm'.r = tm.r := by
  induction fuel generalizing gap sv tm with
  | zero => simp [drain] at h
  | succ fuel ih =>
      rw [drain] at h
      cases hsel : selectMin sv gap with
      | none =>
          rw [hsel] at h
          simp only [Option.some.injEq, Prod.mk.injEq] at h
          obtain ⟨rfl, rfl⟩ := h
          exact ⟨hinv, rfl⟩
      | some s =>
          rw [hsel] at h
          simp only [] at h
          set d := headDur (sv.get s) with hd
          have h1 : ∀ a ∈ (tick d sv).apps, a.rejection = false := tick_rej hinv
          have h2 : ∀ a ∈ (completeHead s (tick d sv) tm).1.apps, a.rejection = false := by
            intro a ha
            rcases completeHead_apps a ha with h' | ⟨b, hb, rfl⟩
            · exact h1 a h'
            · exact h1 b hb
          obtain ⟨hfin, hr⟩ := ih h2 h
          refine ⟨hfin, hr.trans ?_⟩
          rcases @completeHead_times _ _ s (tick d sv) tm with he | ⟨b, hb, _, he⟩
          · rw [he]
          · rw [he]; exact record_r_of_false (h1 b hb)

/-- Non-negativity of all remaining stage durations is preserved by the drain
loop. -/
lemma drain_durs {fuel : ℕ} {gap : Option α} {sv sv' : Servers α} {tm tm' : TimesRec α}
    (hinv : ∀ a ∈ sv.apps, ∀ st ∈ a.stages, 0 ≤ st.2)
    (h : drain fuel gap sv tm = some (sv', tm')) :
    ∀ a ∈ sv'.apps, ∀ st ∈ a.stages, 0 ≤ st.2 := by
  induction fuel generalizing gap sv tm with
  | zero => simp [drain] at h
  | succ fuel ih =>
      rw [drain] at h
      cases hsel : selectMin sv gap with
      | none =>
          rw [hsel] at h
          simp only [Option.some.injEq, Prod.mk.injEq] at h
          obtain ⟨rfl, rfl⟩ := h
          exact hinv
      | some s =>
          rw [hsel] at h
          simp only [] at h
          obtain ⟨hne, _, hmin⟩ := selectMin_spec hsel
          set d := headDur (sv.get s) with hd
          have h1 : ∀ a ∈ (tick d sv).apps, ∀ st ∈ a.stages, 0 ≤ st.2 :=
            tick_durs (fun s' hne' => hmin s' hne') hinv
          have h2 : ∀ a ∈ (completeHead s (tick d sv) tm).1.apps,
              ∀ st ∈ a.stages, 0 ≤ st.2 := by
            intro a ha
            rcases completeHead_apps a ha with h' | ⟨b, hb, rfl⟩
            · exact h1 a h'
            · intro st hst
              exact h1 b hb st (mem_of_mem_tail hst)
          exact ih h2 h

/-- With `q ≥ 1` and an open-interval uniform source, every applicant built
by `process_application` has `rejection = False`. -/
lemma pa_norej {muf muc muw p q r : α} {rng : Rng α}
    (hq : (1:α) ≤ q) (hu : ∀ k, rng.u k < 1) (n : ℕ) :
    (process_application muf muc muw p q r rng n).1.rejection = false := by
  unfold process_application
  by_cases h1 : rng.u n < p
  · simp [h1]
  · have h2 : rng.u (n + 2) < q := lt_of_lt_of_le (hu (n + 2)) hq
    simp [h1, h2]

/-- All service durations drawn by `process_application` are non-negative
when the rates are positive and the transformed draws are non-negative. -/
lemma pa_durs {muf muc muw p q r : α} {rng : Rng α}
    (hnl : ∀ k, 0 ≤ rng.negLog (rng.u k))
    (hf : 0 < muf) (hc : 0 < muc) (hw : 0 < muw) (n : ℕ) :
    ∀ st ∈ (process_application muf muc muw p q r rng n).1.stages, 0 ≤ st.2 := by
  have hdraw : ∀ (mu : α), 0 < mu → ∀ k, 0 ≤ expDraw (1 / mu) rng k := fun mu hmu k =>
    mul_nonneg (le_of_lt (by positivity)) (hnl k)
  unfold process_application
  by_cases h1 : rng.u n < p
  · simp only [if_pos h1]
    intro st hst
    simp only [List.mem_singleton] at hst
    subst hst
    exact hdraw muf hf _
  · simp only [if_neg h1]
    by_cases h2 : rng.u (n + 2) < q
    · simp only [if_pos h2]
      intro st hst
      simp only [List.mem_cons, List.not_mem_nil, or_false] at hst
      rcases hst with rfl | rfl
      · exact hdraw muc hc _
      · exact hdraw muf hf _
    · simp only [if_neg h2]
      by_cases h3 : rng.u (n + 4) < r
      · simp only [if_pos h3]
        intro st hst
        simp only [List.mem_cons, List.not_mem_nil, or_false] at hst
        rcases hst with rfl | rfl | rfl
        · exact hdraw muc hc _
        · exact hdraw muw hw _
        · exact hdraw muf hf _
      · simp only [if_neg h3]
        intro st hst
        simp only [List.mem_cons, List.not_mem_nil, or_false] at hst
        rcases hst with rfl | rfl
        · exact hdraw muc hc _
        · exact hdraw muw hw _

lemma slotStep_rej {muf muc muw p q r : α} {rng : Rng α} {fuel : ℕ}
    {st st' : SlotState α} {t : Option α}
    (hpa : ∀ n, (process_application muf muc muw p q r rng n).1.rejection = false)
    (hinv : ∀ a ∈ st.servers.apps, a.rejection = false)
    (h : slotStep muf muc muw p q r rng fuel st t = some st') :
    (∀ a ∈ st'.servers.apps, a.rejection = false) ∧ st'.times.r = st.times.r := by
  unfold slotStep at h
  cases hdr : drain fuel (gapOf t st.t_prev) st.servers st.times with
  | none => rw [hdr] at h; simp at h
  | some pr =>
      rw [hdr] at h
      obtain ⟨sv1, tm1⟩ := pr
      simp only [Option.some.injEq] at h
      subst h
      obtain ⟨hsv, hr⟩ := drain_rej hinv hdr
      refine ⟨?_, hr⟩
      intro a ha
      rcases set_mem_apps ha with h' | h'
      · rcases List.mem_append.mp h' with h'' | h''
        · exact hsv a (get_mem_apps h'')
        · simp only [List.mem_singleton] at h''
          subst h''
          exact hpa st.n
      · exact hsv a h'

lemma runSlots_rej {muf muc muw p q r : α} {rng : Rng α} {fuel : ℕ}
    (hpa : ∀ n, (process_application muf muc muw p q r rng n).1.rejection = false) :
    ∀ (slots : List (Option α)) (st st' : SlotState α),
      (∀ a ∈ st.servers.apps, a.rejection = false) →
      runSlots muf muc muw p q r rng fuel st slots = some st' →
      (∀ a ∈ st'.servers.apps, a.rejection = false) ∧ st'.times.r = st.times.r := by
  intro slots
  induction slots with
  | nil =>
      intro st st' hinv h
      simp only [runSlots, Option.some.injEq] at h
      subst h
      exact ⟨hinv, rfl⟩
  | cons t rest ih =>
      intro st st' hinv h
      rw [runSlots] at h
      cases hss : slotStep muf muc muw p q r rng fuel st t with
      | none => rw [hss] at h; simp at h
      | some st1 =>
          rw [hss] at h
          obtain ⟨h1, hr1⟩ := slotStep_rej hpa hinv hss
          obtain ⟨h2, hr2⟩ := ih st1 st' h1 h
          exact ⟨h2, hr2.trans hr1⟩

lemma replication_rej {lam muf muc muw p q r T : α} {rng : Rng α} {fuel : ℕ}
    {tm : TimesRec α} {n : ℕ} {st' : SlotState α}
    (hpa : ∀ k, (process_application muf muc muw p q r rng k).1.rejection = false)
    (h : replication lam muf muc muw p q r T rng fuel tm n = some st') :
    st'.times.r = tm.r := by
  unfold replication at h
  cases hp : poisson_process lam T rng fuel n with
  | none => rw [hp] at h; simp at h
  | some pr =>
      rw [hp] at h
      obtain ⟨arr, n'⟩ := pr
      have h0 : ∀ a ∈ (⟨⟨[], [], []⟩, tm, 0, n'⟩ : SlotState α).servers.apps,
          a.rejection = false := by
        intro a ha
        simp [Servers.apps] at ha
      exact (runSlots_rej hpa _ _ _ h0 h).2

lemma mainAux_rej {lam muf muc muw p q r T : α} {rng : Rng α} {fuel : ℕ}
    (hpa : ∀ k, (process_application muf muc muw p q r rng k).1.rejection = false) :
    ∀ (K : ℕ) (tm : TimesRec α) (n : ℕ) (res : TimesRec α × ℕ),
      mainAux lam muf muc muw p q r T rng fuel K tm n = some res →
      res.1.r = tm.r := by
  intro K
  induction K with
  | zero =>
      intro tm n res h
      simp only [mainAux, Option.some.injEq] at h
      subst h
      rfl
  | succ K ih =>
      intro tm n res h
      rw [mainAux] at h
      cases hrep : replication lam muf muc muw p q r T rng fuel tm n with
      | none => rw [hrep] at h; simp at h
      | some st =>
          rw [hrep] at h
          exact (ih st.times st.n res h).trans (replication_rej hpa hrep)

lemma slotStep_durs {muf muc muw p q r : α} {rng : Rng α} {fuel : ℕ}
    {st st' : SlotState α} {t : Option α}
    (hpa : ∀ k, ∀ stg ∈ (process_application muf muc muw p q r rng k).1.stages, 0 ≤ stg.2)
    (hinv : ∀ a ∈ st.servers.apps, ∀ stg ∈ a.stages, 0 ≤ stg.2)
    (h : slotStep muf muc muw p q r rng fuel st t = some st') :
    ∀ a ∈ st'.servers.apps, ∀ stg ∈ a.stages, 0 ≤ stg.2 := by
  unfold slotStep at h
  cases hdr : drain fuel (gapOf t st.t_prev) st.servers st.times with
  | none => rw [hdr] at h; simp at h
  | some pr =>
      rw [hdr] at h
      obtain ⟨sv1, tm1⟩ := pr
      simp only [Option.some.injEq] at h
      subst h
      have hsv := drain_durs hinv hdr
      intro a ha
      rcases set_mem_apps ha with h' | h'
      · rcases List.mem_append.mp h' with h'' | h''
        · exact hsv a (get_mem_apps h'')
        · simp only [List.mem_singleton] at h''
          subst h''
          exact hpa st.n
      · exact hsv a h'

lemma runSlots_durs {muf muc muw p q r : α} {rng : Rng α} {fuel : ℕ}
    (hpa : ∀ k, ∀ stg ∈ (process_application muf muc muw p q r rng k).1.stages, 0 ≤ stg.2) :
    ∀ (slots : List (Option α)) (st st' : SlotState α),
      (∀ a ∈ st.servers.apps, ∀ stg ∈ a.stages, 0 ≤ stg.2) →
      runSlots muf muc muw p q r rng fuel st slots = some st' →
      ∀ a ∈ st'.servers.apps, ∀ stg ∈ a.stages, 0 ≤ stg.2 := by
  intro slots
  induction slots with
  | nil =>
      intro st st' hinv h
      simp only [runSlots, Option.some.injEq] at h
      subst h
      exact hinv
  | cons t rest ih =>
      intro st st' hinv h
      rw [runSlots] at h
      cases hss : slotStep muf muc muw p q r rng fuel st t with
      | none => rw [hss] at h; simp at h
      | some st1 =>
          rw [hss] at h
          exact ih st1 st' (slotStep_durs hpa hinv hss) h

/-! ### Ghost invariant: sojourn time dominates the drawn service total -/

/-- Ghost residence invariant: non-negative clocks and drawn totals, and the
accounting identity that accrued time plus remaining work covers the
creation-time drawn total. -/
def GInv (a : GApplicant α) : Prop :=
  0 ≤ a.time_spent_total ∧ 0 ≤ a.origSum ∧ (∀ st ∈ a.stages, 0 ≤ st.2) ∧
    a.origSum ≤ a.time_spent_total + sumDur a.stages

/-- A recorded `(sojourn, drawn total)` pair is well-bounded. -/
def PairOK (pr : α × α) : Prop := 0 ≤ pr.2 ∧ pr.2 ≤ pr.1

def TimesOK (tm : GTimes α) : Prop :=
  (∀ pr ∈ tm.c, PairOK pr) ∧ (∀ pr ∈ tm.r, PairOK pr)

lemma sumDur_decHead {d : α} {stg : List (Station × α)} (h : stg ≠ []) :
    sumDur (decHead d stg) = sumDur stg - d := by
  cases stg with
  | nil => exact absurd rfl h
  | cons s0 r =>
      obtain ⟨s0n, t0⟩ := s0
      simp [sumDur, decHead]
      ring

lemma sumDur_tail_of_head_zero {stg : List (Station × α)} (h : stageDur stg = 0) :
    sumDur stg.tail = sumDur stg := by
  cases stg with
  | nil => rfl
  | cons s0 r =>
      obtain ⟨s0n, t0⟩ := s0
      have : t0 = 0 := h
      simp [sumDur, this]

lemma sumDur_nonneg {stg : List (Station × α)} (h : ∀ st ∈ stg, 0 ≤ st.2) :
    0 ≤ sumDur stg := by
  apply List.sum_nonneg
  intro x hx
  obtain ⟨⟨s0, t0⟩, hmem, rfl⟩ := List.mem_map.mp hx
  exact h _ hmem

lemma stageDur_nonneg {stg : List (Station × α)} (h : ∀ st ∈ stg, 0 ≤ st.2) :
    0 ≤ stageDur stg := by
  cases stg with
  | nil => exact le_refl 0
  | cons s0 r => exact h s0 (by simp)

lemma gget_mem_apps {sv : GServers α} {s : Station} {a : GApplicant α}
    (h : a ∈ sv.get s) : a ∈ sv.apps := by
  cases s <;> simp [GServers.get, GServers.apps] at h ⊢ <;> tauto

lemma gset_mem_apps {sv : GServers α} {s : Station} {q : List (GApplicant α)}
    {a : GApplicant α} (h : a ∈ (sv.set s q).apps) : a ∈ q ∨ a ∈ sv.apps := by
  cases s <;> simp [GServers.set, GServers.apps] at h ⊢ <;> tauto

lemma gtick_get (d : α) (sv : GServers α) (s : Station) :
    (gtick d sv).get s = gtickQueue d (sv.get s) := by
  cases s <;> rfl

lemma mem_gtick_apps {d : α} {sv : GServers α} {a : GApplicant α} :
    a ∈ (gtick d sv).apps ↔
      a ∈ gtickQueue d sv.F ∨ a ∈ gtickQueue d sv.C ∨ a ∈ gtickQueue d sv.W := by
  simp [gtick, GServers.apps, or_assoc]

lemma gheadDur_nonneg {q : List (GApplicant α)} (h : ∀ b ∈ q, GInv b) :
    0 ≤ gheadDur q := by
  cases q with
  | nil => exact le_refl 0
  | cons b t => exact stageDur_nonneg (h b (by simp)).2.2.1

lemma gtickQueue_inv {d : α} {q : List (GApplicant α)} (hd : 0 ≤ d)
    (hmin : q ≠ [] → d ≤ gheadDur q)
    (h : ∀ b ∈ q, GInv b) : ∀ a ∈ gtickQueue d q, GInv a := by
  intro a ha
  cases q with
  | nil => simp [gtickQueue] at ha
  | cons b t =>
      simp only [gtickQueue, List.mem_cons] at ha
      rcases ha with rfl | ha
      · obtain ⟨he, ho, hst, hphi⟩ := h b (by simp)
        refine ⟨add_nonneg he hd, ho, ?_, ?_⟩
        · intro st hstm
          have hstm' : st ∈ decHead d b.stages := hstm
          cases hbs : b.stages with
          | nil => rw [hbs] at hstm'; simp [decHead] at hstm'
          | cons s0 rest =>
              obtain ⟨s0n, t0⟩ := s0
              rw [hbs] at hstm'
              simp only [decHead, List.mem_cons] at hstm'
              rcases hstm' with rfl | hstm'
              · have h1 : d ≤ gheadDur (b :: t) := hmin (by simp)
                have h2 : gheadDur (b :: t) = t0 := by simp [gheadDur, hbs, stageDur]
                rw [h2] at h1
                simpa using sub_nonneg.mpr h1
              · exact hst _ (by rw [hbs]; exact List.mem_cons_of_mem _ hstm')
        · show b.origSum ≤ b.time_spent_total + d + sumDur (decHead d b.stages)
          cases hbs : b.stages with
          | nil =>
              rw [hbs] at hphi
              simp only [decHead, sumDur, List.map_nil, List.sum_nil] at hphi ⊢
              linarith
          | cons s0 rest =>
              rw [hbs] at hphi
              rw [sumDur_decHead (by simp)]
              linarith
      · obtain ⟨b', hb', rfl⟩ := List.mem_map.mp ha
        obtain ⟨he, ho, hst, hphi⟩ := h b' (by simp [hb'])
        exact ⟨add_nonneg he hd, ho, hst, by
          show b'.origSum ≤ b'.time_spent_total + d + sumDur b'.stages
          linarith⟩

lemma gtick_inv {d : α} {sv : GServers α} (hd : 0 ≤ d)
    (hmin : ∀ s, sv.get s ≠ [] → d ≤ gheadDur (sv.get s))
    (h : ∀ a ∈ sv.apps, GInv a) :
    ∀ a ∈ (gtick d sv).apps, GInv a := by
  intro a ha
  rcases mem_gtick_apps.mp ha with h' | h' | h'
  · exact gtickQueue_inv hd (hmin .F) (fun b hb => h b (gget_mem_apps (s := .F) hb)) a h'
  · exact gtickQueue_inv hd (hmin .C) (fun b hb => h b (gget_mem_apps (s := .C) hb)) a h'
  · exact gtickQueue_inv hd (hmin .W) (fun b hb => h b (gget_mem_apps (s := .W) hb)) a h'

lemma gtick_head_zero {sv : GServers α} {s : Station} :
    gheadDur ((gtick (gheadDur (sv.get s)) sv).get s) = 0 := by
  rw [gtick_get]
  cases hq : sv.get s with
  | nil => simp [gtickQueue, gheadDur]
  | cons b t =>
      simp only [gtickQueue, gheadDur]
      cases hbs : b.stages with
      | nil => simp [decHead, stageDur, hbs, hq]
      | cons s0 rest =>
          obtain ⟨s0n, t0⟩ := s0
          simp [decHead, stageDur, hbs, hq]

lemma grecord_ok {tm : GTimes α} {a : GApplicant α} (htm : TimesOK tm)
    (hp : PairOK (a.time_spent_total, a.origSum)) : TimesOK (grecord tm a) := by
  obtain ⟨hc, hr⟩ := htm
  by_cases hrej : a.rejection = true <;>
    simp only [grecord, hrej, if_true, if_false, Bool.false_eq_true] <;>
    constructor <;> intro pr hpr <;>
    first
      | exact hc pr hpr
      | exact hr pr hpr
      | (rcases List.mem_append.mp hpr with h' | h'
         · first
             | exact hc pr h'
             | exact hr pr h'
         · simp only [List.mem_singleton] at h'
           subst h'
           exact hp)

lemma gcompleteHead_inv {s : Station} {sv : GServers α} {tm : GTimes α}
    (hz : gheadDur (sv.get s) = 0)
    (hinv : ∀ a ∈ sv.apps, GInv a) (htm : TimesOK tm) :
    (∀ a ∈ (gcompleteHead s sv tm).1.apps, GInv a) ∧
      TimesOK (gcompleteHead s sv tm).2 := by
  cases hq : sv.get s with
  | nil => rw [gcompleteHead_nil _ hq]; exact ⟨hinv, htm⟩
  | cons b rest =>
      have hbmem : b ∈ sv.apps := gget_mem_apps (s := s) (by rw [hq]; simp)
      obtain ⟨he, ho, hst, hphi⟩ := hinv b hbmem
      have hz' : stageDur b.stages = 0 := by rw [hq] at hz; exact hz
      have htail : sumDur b.stages.tail = sumDur b.stages := sumDur_tail_of_head_zero hz'
      have hinvb : GInv ({ b with stages := b.stages.tail } : GApplicant α) := by
        refine ⟨he, ho, ?_, ?_⟩
        · intro st hstm; exact hst st (mem_of_mem_tail hstm)
        · show b.origSum ≤ b.time_spent_total + sumDur b.stages.tail
          rw [htail]; exact hphi
      have hsetinv : ∀ x ∈ (sv.set s rest).apps, GInv x := by
        intro x hx
        rcases gset_mem_apps hx with h' | h'
        · exact hinv x (gget_mem_apps (s := s) (by rw [hq]; simp [h']))
        · exact hinv x h'
      rcases ht : b.stages.tail with _ | ⟨⟨nx, dd⟩, rest2⟩
      · rw [gcompleteHead_cons_rec _ hq ht]
        refine ⟨hsetinv, ?_⟩
        apply grecord_ok htm
        have h0 : sumDur b.stages = 0 := by
          rw [← htail, ht]; rfl
        refine ⟨ho, ?_⟩
        show b.origSum ≤ b.time_spent_total
        rw [h0] at hphi
        linarith
      · rw [gcompleteHead_cons_move _ hq ht]
        refine ⟨?_, htm⟩
        intro x hx
        rcases gset_mem_apps hx with h' | h'
        · rcases List.mem_append.mp h' with h'' | h''
          · exact hsetinv x (gget_mem_apps h'')
          · simp only [List.mem_singleton] at h''
            subst h''
            exact hinvb
        · exact hsetinv x h'

lemma erase_headDur (sv : GServers α) (s : Station) :
    headDur ((eraseServers sv).get s) = gheadDur (sv.get s) := by
  rw [eraseServers_get, headDur_map_erase]

lemma erase_get_ne {sv : GServers α} {s : Station} :
    (eraseServers sv).get s ≠ [] ↔ sv.get s ≠ [] := by
  rw [eraseServers_get]
  simp

lemma gdrain_inv {fuel : ℕ} {gap : Option α} {sv sv' : GServers α}
    {tm tm' : GTimes α}
    (hinv : ∀ a ∈ sv.apps, GInv a) (htm : TimesOK tm)
    (h : gdrain fuel gap sv tm = some (sv', tm')) :
    (∀ a ∈ sv'.apps, GInv a) ∧ TimesOK tm' := by
  induction fuel generalizing gap sv tm with
  | zero => simp [gdrain] at h
  | succ fuel ih =>
      rw [gdrain] at h
      cases hsel : selectMin (eraseServers sv) gap with
      | none =>
          rw [hsel] at h
          simp only [Option.some.injEq, Prod.mk.injEq] at h
          obtain ⟨rfl, rfl⟩ := h
          exact ⟨hinv, htm⟩
      | some s =>
          rw [hsel] at h
          simp only [] at h
          obtain ⟨hne_e, _, hmin_e⟩ := selectMin_spec hsel
          have hne : sv.get s ≠ [] := erase_get_ne.mp hne_e
          have hmin : ∀ s', sv.get s' ≠ [] →
              gheadDur (sv.get s) ≤ gheadDur (sv.get s') := by
            intro s' h'
            have := hmin_e s' (erase_get_ne.mpr h')
            rwa [erase_headDur, erase_headDur] at this
          have hd0 : 0 ≤ gheadDur (sv.get s) :=
            gheadDur_nonneg (fun b hb => hinv b (gget_mem_apps hb))
          have h1 := gtick_inv hd0 hmin hinv
          have h2 := gcompleteHead_inv (@gtick_head_zero _ _ sv s) h1 htm
          exact ih h2.1 h2.2 h

/-- The field `time_spent_total` is `0` on every fresh applicant. -/
lemma pa_time_zero {muf muc muw p q r : α} {rng : Rng α} (n : ℕ) :
    (process_application muf muc muw p q r rng n).1.time_spent_total = 0 := by
  unfold process_application
  split_ifs <;> rfl

lemma gpa_inv {muf muc muw p q r : α} {rng : Rng α}
    (hnl : ∀ k, 0 ≤ rng.negLog (rng.u k))
    (hf : 0 < muf) (hc : 0 < muc) (hw : 0 < muw) (n : ℕ) :
    GInv (gprocess_application muf muc muw p q r rng n).1 := by
  have hd := pa_durs (p := p) (q := q) (r := r) hnl hf hc hw n
  have ht : (gprocess_application muf muc muw p q r rng n).1.time_spent_total = 0 :=
    pa_time_zero n
  have hsum : 0 ≤ sumDur (process_application muf muc muw p q r rng n).1.stages :=
    sumDur_nonneg hd
  refine ⟨le_of_eq ht.symm, hsum, hd, ?_⟩
  rw [ht]
  simp only [zero_add]
  exact le_of_eq rfl

lemma gslotStep_inv {muf muc muw p q r : α} {rng : Rng α} {fuel : ℕ}
    {st st' : GSlotState α} {t : Option α}
    (hnl : ∀ k, 0 ≤ rng.negLog (rng.u k))
    (hf : 0 < muf) (hc : 0 < muc) (hw : 0 < muw)
    (hinv : ∀ a ∈ st.servers.apps, GInv a) (htm : TimesOK st.times)
    (h : gslotStep muf muc muw p q r rng fuel st t = some st') :
    (∀ a ∈ st'.servers.apps, GInv a) ∧ TimesOK st'.times := by
  unfold gslotStep at h
  cases hdr : gdrain fuel (gapOf t st.t_prev) st.servers st.times with
  | none => rw [hdr] at h; simp at h
  | some pr =>
      rw [hdr] at h
      obtain ⟨sv1, tm1⟩ := pr
      simp only [Option.some.injEq] at h
      subst h
      obtain ⟨hsv, htm1⟩ := gdrain_inv hinv htm hdr
      refine ⟨?_, htm1⟩
      intro a ha
      rcases gset_mem_apps ha with h' | h'
      · rcases List.mem_append.mp h' with h'' | h''
        · exact hsv a (gget_mem_apps h'')
        · simp only [List.mem_singleton] at h''
          subst h''
          exact gpa_inv hnl hf hc hw st.n
      · exact hsv a h'

lemma grunSlots_inv {muf muc muw p q r : α} {rng : Rng α} {fuel : ℕ}
    (hnl : ∀ k, 0 ≤ rng.negLog (rng.u k))
    (hf : 0 < muf) (hc : 0 < muc) (hw : 0 < muw) :
    ∀ (slots : List (Option α)) (st st' : GSlotState α),
      (∀ a ∈ st.servers.apps, GInv a) → TimesOK st.times →
      grunSlots muf muc muw p q r rng fuel st slots = some st' →
      (∀ a ∈ st'.servers.apps, GInv a) ∧ TimesOK st'.times := by
  intro slots
  induction slots with
  | nil =>
      intro st st' hinv htm h
      simp only [grunSlots, Option.some.injEq] at h
      subst h
      exact ⟨hinv, htm⟩
  | cons t rest ih =>
      intro st st' hinv htm h
      rw [grunSlots] at h
      cases hss : gslotStep muf muc muw p q r rng fuel st t with
      | none => rw [hss] at h; simp at h
      | some st1 =>
          rw [hss] at h
          obtain ⟨h1, h2⟩ := gslotStep_inv hnl hf hc hw hinv htm hss
          exact ih st1 st' h1 h2 h

lemma greplication_inv {lam muf muc muw p q r T : α} {rng : Rng α} {fuel : ℕ}
    {tm : GTimes α} {n created : ℕ} {st' : GSlotState α}
    (hnl : ∀ k, 0 ≤ rng.negLog (rng.u k))
    (hf : 0 < muf) (hc : 0 < muc) (hw : 0 < muw)
    (htm : TimesOK tm)
    (h : greplication lam muf muc muw p q r T rng fuel tm n created = some st') :
    TimesOK st'.times := by
  unfold greplication at h
  cases hp : poisson_process lam T rng fuel n with
  | none => rw [hp] at h; simp at h
  | some pr =>
      rw [hp] at h
      obtain ⟨arr, n'⟩ := pr
      have h0 : ∀ a ∈ (⟨⟨[], [], []⟩, tm, 0, n', created⟩ : GSlotState α).servers.apps,
          GInv a := by
        intro a ha
        simp [GServers.apps] at ha
      exact (grunSlots_inv hnl hf hc hw _ _ _ h0 htm h).2

lemma gmainAux_inv {lam muf muc muw p q r T : α} {rng : Rng α} {fuel : ℕ}
    (hnl : ∀ k, 0 ≤ rng.negLog (rng.u k))
    (hf : 0 < muf) (hc : 0 < muc) (hw : 0 < muw) :
    ∀ (K : ℕ) (tm : GTimes α) (n created : ℕ) (res : GTimes α × ℕ × ℕ),
      TimesOK tm →
      gmainAux lam muf muc muw p q r T rng fuel K tm n created = some res →
      TimesOK res.1 := by
  intro K
  induction K with
  | zero =>
      intro tm n created res htm h
      simp only [gmainAux, Option.some.injEq] at h
      subst h
      exact htm
  | succ K ih =>
      intro tm n created res htm h
      rw [gmainAux] at h
      cases hrep : greplication lam muf muc muw p q r T rng fuel tm n created with
      | none => rw [hrep] at h; simp at h
      | some st =>
          rw [hrep] at h
          exact ih st.times st.n st.created res
            (greplication_inv hnl hf hc hw htm hrep) h

/-! ### Transport along an ordered-field embedding

The event loop commutes with any strictly monotone additive map of the time
scale.  This is used to transfer a concrete rational run to the real-valued
scenario whose durations are multiples of `log 2`. -/

section Transport

variable {β : Type} [LinearOrderedField β]

/-- Map every duration and clock of an applicant through `φ`. -/
def mapApp (φ : α → β) (a : Applicant α) : Applicant β :=
  ⟨a.stages.map fun st => (st.1, φ st.2), a.rejection, φ a.time_spent_total⟩

def mapServers (φ : α → β) (sv : Servers α) : Servers β :=
  ⟨sv.F.map (mapApp φ), sv.C.map (mapApp φ), sv.W.map (mapApp φ)⟩

def mapTimes (φ : α → β) (tm : TimesRec α) : TimesRec β :=
  ⟨tm.c.map φ, tm.r.map φ⟩

def mapState (φ : α → β) (st : SlotState α) : SlotState β :=
  ⟨mapServers φ st.servers, mapTimes φ st.times, φ st.t_prev, st.n⟩

lemma mapServers_get (φ : α → β) (sv : Servers α) (s : Station) :
    (mapServers φ sv).get s = (sv.get s).map (mapApp φ) := by
  cases s <;> rfl

lemma mapServers_set (φ : α → β) (sv : Servers α) (s : Station)
    (q : List (Applicant α)) :
    (mapServers φ sv).set s (q.map (mapApp φ)) = mapServers φ (sv.set s q) := by
  cases s <;> rfl

lemma stageDur_map (φ : α → β) (h0 : φ 0 = 0) (stages : List (Station × α)) :
    stageDur (stages.map fun st => (st.1, φ st.2)) = φ (stageDur stages) := by
  cases stages with
  | nil => exact h0.symm
  | cons s0 rest => rfl

lemma headDur_map (φ : α → β) (h0 : φ 0 = 0) (q : List (Applicant α)) :
    headDur (q.map (mapApp φ)) = φ (headDur q) := by
  cases q with
  | nil => exact h0.symm
  | cons a rest => exact stageDur_map φ h0 a.stages

lemma ltGap_map (φ : α → β) (hlt : ∀ x y, x < y ↔ φ x < φ y)
    (d : α) (g : Option α) : ltGap (φ d) (g.map φ) ↔ ltGap d g := by
  cases g with
  | none => simp [ltGap]
  | some m => exact (hlt d m).symm

lemma scan1_map (φ : α → β) (h0 : φ 0 = 0) (hlt : ∀ x y, x < y ↔ φ x < φ y)
    (s : Station) (q : List (Applicant α)) (w : Option Station) (m : Option α) :
    scan1 s (q.map (mapApp φ)) (w, m.map φ) =
      ((scan1 s q (w, m)).1, (scan1 s q (w, m)).2.map φ) := by
  cases q with
  | nil => rfl
  | cons a rest =>
      simp only [List.map_cons, scan1]
      have hsd : stageDur ((mapApp φ a).stages) = φ (stageDur a.stages) :=
        stageDur_map φ h0 a.stages
      by_cases hc : ltGap (stageDur a.stages) m
      · have hc2 : ltGap (stageDur ((mapApp φ a).stages)) (m.map φ) := by
          rw [hsd]; exact (ltGap_map φ hlt _ m).mpr hc
        rw [if_pos hc, if_pos hc2]
        simp [hsd]
      · have hc2 : ¬ ltGap (stageDur ((mapApp φ a).stages)) (m.map φ) := by
          rw [hsd]; exact fun hx => hc ((ltGap_map φ hlt _ m).mp hx)
        rw [if_neg hc, if_neg hc2]

lemma selectMin_map (φ : α → β) (h0 : φ 0 = 0) (hlt : ∀ x y, x < y ↔ φ x < φ y)
    (sv : Servers α) (g : Option α) :
    selectMin (mapServers φ sv) (g.map φ) = selectMin sv g := by
  unfold selectMin
  have hF : (mapServers φ sv).F = sv.F.map (mapApp φ) := rfl
  have hC : (mapServers φ sv).C = sv.C.map (mapApp φ) := rfl
  have hW : (mapServers φ sv).W = sv.W.map (mapApp φ) := rfl
  rw [hF, hC, hW]
  have key : ∀ (w : Option Station) (m : Option α),
      (scan1 .W (sv.W.map (mapApp φ)) (scan1 .C (sv.C.map (mapApp φ))
        (scan1 .F (sv.F.map (mapApp φ)) (w, m.map φ)))).1 =
      (scan1 .W sv.W (scan1 .C sv.C (scan1 .F sv.F (w, m)))).1 := by
    intro w m
    rw [scan1_map φ h0 hlt, scan1_map φ h0 hlt, scan1_map φ h0 hlt]
  exact key none g

lemma decHead_map (φ : α → β) (hsub : ∀ x y, φ (x - y) = φ x - φ y)
    (d : α) (stages : List (Station × α)) :
    decHead (φ d) (stages.map fun st => (st.1, φ st.2)) =
      (decHead d stages).map fun st => (st.1, φ st.2) := by
  cases stages with
  | nil => rfl
  | cons s0 rest =>
      obtain ⟨s0n, t0⟩ := s0
      simp [decHead, hsub]

lemma tickQueue_map (φ : α → β) (hadd : ∀ x y, φ (x + y) = φ x + φ y)
    (hsub : ∀ x y, φ (x - y) = φ x - φ y) (d : α) (q : List (Applicant α)) :
    tickQueue (φ d) (q.map (mapApp φ)) = (tickQueue d q).map (mapApp φ) := by
  cases q with
  | nil => rfl
  | cons a rest =>
      simp only [List.map_cons, tickQueue, List.map_map]
      congr 1
      · simp [mapApp, decHead_map φ hsub, hadd]
      · apply List.map_congr_left
        intro b _
        simp [Function.comp, bumpApp, mapApp, hadd]

lemma tick_map (φ : α → β) (hadd : ∀ x y, φ (x + y) = φ x + φ y)
    (hsub : ∀ x y, φ (x - y) = φ x - φ y) (d : α) (sv : Servers α) :
    tick (φ d) (mapServers φ sv) = mapServers φ (tick d sv) := by
  simp only [tick, mapServers, tickQueue_map φ hadd hsub]

lemma record_map (φ : α → β) (tm : TimesRec α) (a : Applicant α) :
    record (mapTimes φ tm) (mapApp φ a) = mapTimes φ (record tm a) := by
  by_cases h : a.rejection = true <;>
    simp [record, mapApp, mapTimes, h]

lemma completeHead_map (φ : α → β) (s : Station) (sv : Servers α) (tm : TimesRec α) :
    completeHead s (mapServers φ sv) (mapTimes φ tm) =
      (mapServers φ (completeHead s sv tm).1, mapTimes φ (completeHead s sv tm).2) := by
  cases hq : sv.get s with
  | nil =>
      have hq' : (mapServers φ sv).get s = [] := by rw [mapServers_get, hq]; rfl
      rw [completeHead_nil _ hq', completeHead_nil _ hq]
  | cons a rest =>
      have hq' : (mapServers φ sv).get s = mapApp φ a :: rest.map (mapApp φ) := by
        rw [mapServers_get, hq]; rfl
      have hta : (mapApp φ a).stages.tail = a.stages.tail.map fun st => (st.1, φ st.2) := by
        show (a.stages.map fun st => (st.1, φ st.2)).tail =
          a.stages.tail.map fun st => (st.1, φ st.2)
        cases a.stages <;> rfl
      have hupd : ({ mapApp φ a with stages := (mapApp φ a).stages.tail } : Applicant β) =
          mapApp φ { a with stages := a.stages.tail } := by
        simp [mapApp, hta]
      rcases ht : a.stages.tail with _ | ⟨⟨nx, dd⟩, rest2⟩
      · have ht' : (mapApp φ a).stages.tail = [] := by rw [hta, ht]; rfl
        rw [completeHead_cons_rec _ hq' ht', completeHead_cons_rec _ hq ht]
        rw [hupd, mapServers_set, record_map]
      · have ht' : (mapApp φ a).stages.tail = (nx, φ dd) :: rest2.map fun st => (st.1, φ st.2) := by
          rw [hta, ht]; rfl
        rw [completeHead_cons_move _ hq' ht', completeHead_cons_move _ hq ht]
        rw [hupd, mapServers_set, mapServers_get]
        have h2 : List.map (mapApp φ) ((sv.set s rest).get nx) ++
            [mapApp φ { a with stages := a.stages.tail }] =
            List.map (mapApp φ) ((sv.set s rest).get nx ++ [{ a with stages := a.stages.tail }]) := by
          rw [List.map_append]; rfl
        rw [h2, mapServers_set]

lemma gapOf_map (φ : α → β) (hsub : ∀ x y, φ (x - y) = φ x - φ y)
    (t : Option α) (tp : α) :
    gapOf (t.map φ) (φ tp) = (gapOf t tp).map φ := by
  cases t <;> simp [gapOf, hsub]

lemma gapSub_map (φ : α → β) (hsub : ∀ x y, φ (x - y) = φ x - φ y)
    (g : Option α) (d : α) :
    gapSub (g.map φ) (φ d) = (gapSub g d).map φ := by
  cases g <;> simp [gapSub, hsub]

lemma drain_map (φ : α → β) (h0 : φ 0 = 0) (hadd : ∀ x y, φ (x + y) = φ x + φ y)
    (hsub : ∀ x y, φ (x - y) = φ x - φ y) (hlt : ∀ x y, x < y ↔ φ x < φ y)
    (fuel : ℕ) (gap : Option α) (sv : Servers α) (tm : TimesRec α) :
    drain fuel (gap.map φ) (mapServers φ sv) (mapTimes φ tm) =
      (drain fuel gap sv tm).map fun pr => (mapServers φ pr.1, mapTimes φ pr.2) := by
  induction fuel generalizing gap sv tm with
  | zero => rfl
  | succ fuel ih =>
      simp only [drain]
      rw [selectMin_map φ h0 hlt]
      cases hsel : selectMin sv gap with
      | none => rfl
      | some s =>
          simp only []
          rw [mapServers_get, headDur_map φ h0, tick_map φ hadd hsub,
            completeHead_map φ, gapSub_map φ hsub]
          exact ih _ _ _

lemma firstStation_map (φ : α → β) (stages : List (Station × α)) :
    firstStation (stages.map fun st => (st.1, φ st.2)) = firstStation stages := by
  cases stages with
  | nil => rfl
  | cons s0 rest => rfl

lemma slotStep_map (φ : α → β) (h0 : φ 0 = 0) (hadd : ∀ x y, φ (x + y) = φ x + φ y)
    (hsub : ∀ x y, φ (x - y) = φ x - φ y) (hlt : ∀ x y, x < y ↔ φ x < φ y)
    {muf1 muc1 muw1 p1 q1 r1 : α} {muf2 muc2 muw2 p2 q2 r2 : β}
    {rng1 : Rng α} {rng2 : Rng β}
    (hpa : ∀ m, process_application muf2 muc2 muw2 p2 q2 r2 rng2 m =
      (mapApp φ (process_application muf1 muc1 muw1 p1 q1 r1 rng1 m).1,
        (process_application muf1 muc1 muw1 p1 q1 r1 rng1 m).2))
    (fuel : ℕ) (st : SlotState α) (t : Option α) :
    slotStep muf2 muc2 muw2 p2 q2 r2 rng2 fuel (mapState φ st) (t.map φ) =
      (slotStep muf1 muc1 muw1 p1 q1 r1 rng1 fuel st t).map (mapState φ) := by
  unfold slotStep
  have hst : (mapState φ st).servers = mapServers φ st.servers := rfl
  have htm : (mapState φ st).times = mapTimes φ st.times := rfl
  have htp : (mapState φ st).t_prev = φ st.t_prev := rfl
  rw [hst, htm, htp, gapOf_map φ hsub, drain_map φ h0 hadd hsub hlt]
  cases hdr : drain fuel (gapOf t st.t_prev) st.servers st.times with
  | none => rfl
  | some pr =>
      simp only [Option.map_some, Option.map_some']
      have hn : (mapState φ st).n = st.n := rfl
      rw [hn, hpa st.n]
      have hfs : firstStation (mapApp φ (process_application muf1 muc1 muw1 p1 q1 r1 rng1 st.n).1).stages =
          firstStation (process_application muf1 muc1 muw1 p1 q1 r1 rng1 st.n).1.stages :=
        firstStation_map φ _
      rw [hfs]
      have hset : ∀ (svx : Servers α) (ax : Applicant α),
          (mapServers φ svx).set (firstStation ax.stages)
            ((mapServers φ svx).get (firstStation ax.stages) ++ [mapApp φ ax]) =
          mapServers φ (svx.set (firstStation ax.stages)
            (svx.get (firstStation ax.stages) ++ [ax])) := by
        intro svx ax
        rw [mapServers_get]
        have h3 : List.map (mapApp φ) (svx.get (firstStation ax.stages)) ++ [mapApp φ ax] =
            List.map (mapApp φ) (svx.get (firstStation ax.stages) ++ [ax]) := by
          rw [List.map_append]; rfl
        rw [h3, mapServers_set]
      rw [hset]
      have hgd : (t.map φ).getD (φ st.t_prev) = φ (t.getD st.t_prev) := by
        cases t <;> rfl
      simp only [hgd]
      rfl

lemma runSlots_map (φ : α → β) (h0 : φ 0 = 0) (hadd : ∀ x y, φ (x + y) = φ x + φ y)
    (hsub : ∀ x y, φ (x - y) = φ x - φ y) (hlt : ∀ x y, x < y ↔ φ x < φ y)
    {muf1 muc1 muw1 p1 q1 r1 : α} {muf2 muc2 muw2 p2 q2 r2 : β}
    {rng1 : Rng α} {rng2 : Rng β}
    (hpa : ∀ m, process_application muf2 muc2 muw2 p2 q2 r2 rng2 m =
      (mapApp φ (process_application muf1 muc1 muw1 p1 q1 r1 rng1 m).1,
        (process_application muf1 muc1 muw1 p1 q1 r1 rng1 m).2))
    (fuel : ℕ) (st : SlotState α) (slots : List (Option α)) :
    runSlots muf2 muc2 muw2 p2 q2 r2 rng2 fuel (mapState φ st)
        (slots.map (Option.map φ)) =
      (runSlots muf1 muc1 muw1 p1 q1 r1 rng1 fuel st slots).map (mapState φ) := by
  induction slots generalizing st with
  | nil => rfl
  | cons t rest ih =>
      simp only [List.map_cons, runSlots]
      rw [slotStep_map φ h0 hadd hsub hlt hpa]
      cases slotStep muf1 muc1 muw1 p1 q1 r1 rng1 fuel st t with
      | none => rfl
      | some st1 => exact ih st1

end Transport

/-! ### The §8 concrete scenario: all uniform draws equal to 1/2 -/

/-- Rational stand-in random source used by executable witnesses: every
uniform draw is `1/2` and the transformed draw is the constant `1`. -/
def rngQ : Rng ℚ := ⟨fun _ => 1 / 2, fun _ => 1⟩

/-- The random source of the concrete scenario: every uniform draw returns
`0.5`, and `negLog` is the true inverse-CDF transform `x ↦ -log x`, so every
exponential draw of rate `μ` is `log 2 / μ`. -/
noncomputable def rngHalf : Rng ℝ := ⟨fun _ => 1 / 2, fun x => -Real.log x⟩

lemma rngHalf_negLog (k : ℕ) : rngHalf.negLog (rngHalf.u k) = Real.log 2 := by
  show -Real.log (1 / 2) = Real.log 2
  rw [one_div, Real.log_inv, neg_neg]

lemma logTwo_pos : (0:ℝ) < Real.log 2 := Real.log_pos (by norm_num)

/-- Closed form of the sampling loop for the scenario: starting from
`t = m·(log 2 / 8)`, it emits the arrival times `(m+1)·(log 2 / 8), …,
11·(log 2 / 8)` and consumes `12 - m` draws. -/
lemma poisson_half_aux :
    ∀ (fuel m n : ℕ), m ≤ 12 → 13 - m ≤ fuel →
      poisson_aux (8:ℝ) 1 rngHalf fuel ((m : ℝ) * (Real.log 2 / 8)) n =
        some ((List.range (11 - m)).map
          (fun k => ((m + k + 1 : ℕ) : ℝ) * (Real.log 2 / 8)), n + (12 - m)) := by
  intro fuel
  induction fuel with
  | zero => intro m n hm hf; omega
  | succ fuel ih =>
      intro m n hm hf
      have hlt9 := Real.log_two_lt_d9
      have hgt9 := Real.log_two_gt_d9
      have hc_pos : (0:ℝ) < Real.log 2 / 8 := by positivity
      by_cases hm12 : m = 12
      · subst hm12
        have hge : ¬ ((12 : ℕ) : ℝ) * (Real.log 2 / 8) < 1 := by
          push_cast
          intro hx
          nlinarith
        rw [poisson_aux, if_neg hge]
        norm_num
      · have hm11 : m ≤ 11 := by omega
        have hlt1 : ((m : ℕ) : ℝ) * (Real.log 2 / 8) < 1 := by
          have h1 : ((m : ℕ) : ℝ) ≤ 11 := by exact_mod_cast hm11
          nlinarith
        rw [poisson_aux, if_pos hlt1]
        simp only [rngHalf_negLog]
        have ht' : (m : ℝ) * (Real.log 2 / 8) + Real.log 2 / 8 =
            ((m + 1 : ℕ) : ℝ) * (Real.log 2 / 8) := by push_cast; ring
        rw [ht', ih (m + 1) (n + 1) (by omega) (by omega)]
        simp only []
        by_cases hm10 : m ≤ 10
        · have ht1 : ((m + 1 : ℕ) : ℝ) * (Real.log 2 / 8) < 1 := by
            have h1 : ((m + 1 : ℕ) : ℝ) ≤ 11 := by exact_mod_cast (by omega : m + 1 ≤ 11)
            nlinarith
          rw [if_pos ht1]
          refine congrArg some (Prod.ext ?_ ?_)
          · show ((m + 1 : ℕ) : ℝ) * (Real.log 2 / 8) ::
                (List.range (11 - (m + 1))).map
                  (fun k => ((m + 1 + k + 1 : ℕ) : ℝ) * (Real.log 2 / 8)) = _
            have h11 : 11 - m = (11 - (m + 1)) + 1 := by omega
            rw [h11, List.range_succ_eq_map]
            simp only [List.map_cons, List.map_map]
            refine congrArg₂ List.cons ?_ ?_
            · norm_num
            · apply List.map_congr_left
              intro k _
              show ((m + 1 + k + 1 : ℕ) : ℝ) * (Real.log 2 / 8) =
                ((m + (k + 1) + 1 : ℕ) : ℝ) * (Real.log 2 / 8)
              congr 2
              omega
          · show (n + 1) + (12 - (m + 1)) = n + (12 - m)
            omega
        · have hm11' : m = 11 := by omega
          subst hm11'
          have hge : ¬ ((11 + 1 : ℕ) : ℝ) * (Real.log 2 / 8) < 1 := by
            push_cast
            intro hx
            nlinarith
          rw [if_neg hge]
          norm_num

/-- With every uniform draw equal to `0.5`, `poisson_process(8, 1)` emits
eleven arrival times `k · log 2 / 8`, `k = 1, …, 11`, consuming twelve
draws — not one arrival. -/
lemma poisson_half :
    poisson_process (8:ℝ) 1 rngHalf 20 0 =
      some ((List.range 11).map
        (fun k => ((k + 1 : ℕ) : ℝ) * (Real.log 2 / 8)), 12) := by
  have h := poisson_half_aux 20 0 0 (by omega) (by omega)
  simp only [Nat.cast_zero, zero_mul] at h
  unfold poisson_process
  rw [h]
  norm_num

/-- In the scenario (`p = 1`, all uniform draws `1/2`), every applicant the
Stage Router builds over `ℝ` is the `x ↦ x · log 2` transport of the one the
rational stand-in source builds. -/
lemma scenario_pa (q r : ℝ) (m : ℕ) :
    process_application (6:ℝ) 5 4 1 q r rngHalf m =
      (mapApp (fun x : ℚ => (x : ℝ) * Real.log 2)
        (process_application (6:ℚ) 5 4 1 0 0 rngQ m).1,
       (process_application (6:ℚ) 5 4 1 0 0 rngQ m).2) := by
  have hu : rngHalf.u m < 1 := by norm_num [rngHalf]
  have huq : rngQ.u m < (1:ℚ) := by norm_num [rngQ]
  unfold process_application
  rw [if_pos hu, if_pos huq]
  simp only [mapApp, expDraw, rngHalf_negLog, List.map_cons, List.map_nil]
  norm_num [rngQ]

/-- The slot list of the rational shadow run: arrivals `(k+1)/8`,
`k = 0, …, 10`, then the sentinel. -/
def slotsQ : List (Option ℚ) :=
  ((List.range 11).map fun k : ℕ => some (((k : ℚ) + 1) / 8)) ++ [none]

/-- Draining a single station holding `m` identical one-stage applicants
`(F, c)` with common accrued time `e` against the sentinel gap records the
times `e + c, e + 2c, …, e + mc` in order and empties the station. -/
lemma drain_replicate (c : α) (rs : List α) :
    ∀ (fuel m : ℕ), m < fuel → ∀ (e : α) (cs : List α),
      drain fuel none
        ⟨List.replicate m ⟨[(.F, c)], false, e⟩, [], []⟩ ⟨cs, rs⟩ =
        some (⟨[], [], []⟩,
          ⟨cs ++ (List.range m).map (fun j => e + ((j + 1 : ℕ) : α) * c), rs⟩) := by
  intro fuel
  induction fuel with
  | zero => intro m hm; omega
  | succ fuel ih =>
      intro m hm e cs
      cases m with
      | zero =>
          have hsel : selectMin
              (⟨List.replicate 0 ⟨[(.F, c)], false, e⟩, [], []⟩ : Servers α) none = none := rfl
          rw [drain, hsel]
          simp
      | succ m =>
          have hsel : selectMin
              (⟨List.replicate (m + 1) ⟨[(.F, c)], false, e⟩, [], []⟩ : Servers α) none =
              some .F := rfl
          rw [drain, hsel]
          simp only []
          have hhd : headDur
              ((⟨List.replicate (m + 1) ⟨[(.F, c)], false, e⟩, [], []⟩ : Servers α).get .F) =
              c := rfl
          rw [hhd]
          have htick : tick c
              (⟨List.replicate (m + 1) ⟨[(.F, c)], false, e⟩, [], []⟩ : Servers α) =
              ⟨⟨[(.F, c - c)], false, e + c⟩ ::
                List.replicate m ⟨[(.F, c)], false, e + c⟩, [], []⟩ := by
            show (⟨tickQueue c (List.replicate (m + 1) ⟨[(.F, c)], false, e⟩),
              tickQueue c [], tickQueue c []⟩ : Servers α) = _
            rw [List.replicate_succ]
            simp only [tickQueue, decHead, List.map_replicate, bumpApp]
          rw [htick]
          have hcomp : completeHead .F
              (⟨⟨[(.F, c - c)], false, e + c⟩ ::
                List.replicate m ⟨[(.F, c)], false, e + c⟩, [], []⟩ : Servers α)
              ⟨cs, rs⟩ =
              (⟨List.replicate m ⟨[(.F, c)], false, e + c⟩, [], []⟩,
                ⟨cs ++ [e + c], rs⟩) := by
            simp [completeHead, Servers.get, Servers.set, record]
          rw [hcomp]
          show drain fuel (gapSub none c) _ _ = _
          rw [show gapSub (none : Option α) c = none from rfl]
          rw [ih m (by omega) (e + c) (cs ++ [e + c])]
          refine congrArg some (Prod.ext rfl ?_)
          show (⟨(cs ++ [e + c]) ++
            (List.range m).map (fun j => (e + c) + ((j + 1 : ℕ) : α) * c), rs⟩ : TimesRec α) = _
          have hlist : (List.range (m + 1)).map (fun j => e + ((j + 1 : ℕ) : α) * c) =
              (e + c) :: (List.range m).map (fun j => (e + c) + ((j + 1 : ℕ) : α) * c) := by
            rw [List.range_succ_eq_map, List.map_cons, List.map_map]
            refine congrArg₂ List.cons (by norm_num) ?_
            apply List.map_congr_left
            intro j _
            show e + ((j + 1 + 1 : ℕ) : α) * c = (e + c) + ((j + 1 : ℕ) : α) * c
            push_cast
            ring
          rw [hlist, List.append_assoc, List.singleton_append]

/-- The fresh applicant of the rational shadow scenario. -/
def appF : Applicant ℚ := ⟨[(.F, 1/6)], false, 0⟩

lemma pa_scenarioQ (n : ℕ) :
    process_application (6:ℚ) 5 4 1 0 0 rngQ n = (appF, n + 2) := by
  norm_num [process_application, rngQ, expDraw, appF]

/-- One arrival slot of the rational shadow run: the gap `1/8` is smaller
than the head's remaining `1/6`, so nothing drains, and one more `appF`
joins the Fingerprint queue. -/
lemma arrival_slot (k : ℕ) :
    slotStep (6:ℚ) 5 4 1 0 0 rngQ 20
      ⟨⟨List.replicate k appF, [], []⟩, ⟨[], []⟩, (k : ℚ) / 8, 12 + 2 * k⟩
      (some (((k : ℚ) + 1) / 8)) =
      some ⟨⟨List.replicate (k + 1) appF, [], []⟩, ⟨[], []⟩,
        ((k : ℚ) + 1) / 8, 12 + 2 * (k + 1)⟩ := by
  unfold slotStep
  have hgap : gapOf (some (((k : ℚ) + 1) / 8)) ((k : ℚ) / 8) = some (1/8 : ℚ) := by
    simp only [gapOf]
    ring_nf
  rw [hgap]
  have hdr : drain 20 (some (1/8 : ℚ)) ⟨List.replicate k appF, [], []⟩ ⟨[], []⟩ =
      some (⟨List.replicate k appF, [], []⟩, ⟨[], []⟩) := by
    cases k with
    | zero =>
        have hsel : selectMin
            (⟨List.replicate 0 appF, [], []⟩ : Servers ℚ) (some (1/8 : ℚ)) = none := rfl
        rw [drain, hsel]
    | succ k' =>
        have hsel : selectMin
            (⟨List.replicate (k' + 1) appF, [], []⟩ : Servers ℚ) (some (1/8 : ℚ)) = none := by
          have h16 : ¬ ((1:ℚ)/6 < 1/8) := by norm_num
          simp [selectMin, scan1, List.replicate_succ, ltGap, appF, stageDur, h16]
          norm_num [ltGap]
        rw [drain, hsel]
  rw [hdr]
  simp only []
  rw [pa_scenarioQ]
  simp only [Servers.get, Servers.set, Option.getD]
  have h1 : List.replicate k appF ++ [appF] = List.replicate (k + 1) appF :=
    (List.replicate_succ' k appF).symm
  have h2 : 12 + 2 * k + 2 = 12 + 2 * (k + 1) := by omega
  rw [show firstStation appF.stages = Station.F from rfl]
  simp only [Servers.set, h1, h2]

/-- The eleven arrival slots in sequence. -/
lemma arrivals_run :
    ∀ (m k : ℕ), m + k = 11 →
      runSlots (6:ℚ) 5 4 1 0 0 rngQ 20
        ⟨⟨List.replicate k appF, [], []⟩, ⟨[], []⟩, (k : ℚ) / 8, 12 + 2 * k⟩
        (((List.range' k m).map fun j : ℕ => some (((j : ℚ) + 1) / 8)) ++ [none]) =
      runSlots (6:ℚ) 5 4 1 0 0 rngQ 20
        ⟨⟨List.replicate 11 appF, [], []⟩, ⟨[], []⟩, (11 : ℚ) / 8, 34⟩ [none] := by
  intro m
  induction m with
  | zero =>
      intro k hk
      have hk11 : k = 11 := by omega
      subst hk11
      norm_num
  | succ m ih =>
      intro k hk
      rw [List.range'_succ]
      simp only [List.map_cons, List.cons_append, runSlots]
      rw [arrival_slot k]
      have hih := ih (k + 1) (by omega)
      push_cast at hih ⊢
      exact hih

/-- The rational shadow run: eleven completions `(j+1)/6`, no rejections,
and the sentinel-spawned applicant left in the Fingerprint queue. -/
lemma qrun : runSlots (6:ℚ) 5 4 1 0 0 rngQ 20 ⟨⟨[], [], []⟩, ⟨[], []⟩, 0, 12⟩ slotsQ =
    some ⟨⟨[appF], [], []⟩,
      ⟨(List.range 11).map (fun j : ℕ => ((j : ℚ) + 1) / 6), []⟩, 11/8, 36⟩ := by
  have hl0 : slotsQ = ((List.range' 0 11).map fun j : ℕ => some (((j : ℚ) + 1) / 8)) ++
      [none] := by
    rw [slotsQ, List.range_eq_range']
  have hinit : (⟨⟨[], [], []⟩, ⟨[], []⟩, 0, 12⟩ : SlotState ℚ) =
      ⟨⟨List.replicate 0 appF, [], []⟩, ⟨[], []⟩, ((0 : ℕ) : ℚ) / 8, 12 + 2 * 0⟩ := by
    norm_num
  rw [hl0, hinit, arrivals_run 11 0 (by omega)]
  have hsent : slotStep (6:ℚ) 5 4 1 0 0 rngQ 20
      ⟨⟨List.replicate 11 appF, [], []⟩, ⟨[], []⟩, 11 / 8, 34⟩ (none : Option ℚ) =
      some ⟨⟨[appF], [], []⟩,
        ⟨(List.range 11).map (fun j : ℕ => ((j : ℚ) + 1) / 6), []⟩, 11/8, 36⟩ := by
    unfold slotStep
    rw [show gapOf (none : Option ℚ) (11/8 : ℚ) = none from rfl]
    rw [show (⟨List.replicate 11 appF, [], []⟩ : Servers ℚ) =
      ⟨List.replicate 11 ⟨[(.F, 1/6)], false, 0⟩, [], []⟩ from rfl]
    rw [drain_replicate (1/6 : ℚ) [] 20 11 (by omega) 0 []]
    simp only []
    rw [pa_scenarioQ]
    simp only [Servers.get, Servers.set, Option.getD, List.nil_append]
    rw [show firstStation appF.stages = Station.F from rfl]
    simp only [Servers.set]
    have hc : (List.range 11).map (fun j => (0:ℚ) + ((j + 1 : ℕ) : ℚ) * (1/6)) =
        (List.range 11).map (fun j : ℕ => ((j : ℚ) + 1) / 6) := by
      apply List.map_congr_left
      intro j _
      push_cast
      ring
    rw [hc]
    norm_num
  simp only [runSlots]
  rw [hsent]

/-- The full scenario run of `main`: eleven recorded completions
`(k+1) · log 2 / 6`, `k = 0, …, 10`, and an empty rejected bucket, for any
`q`, `r`. -/
lemma scenario_main (q r : ℝ) :
    main 1 8 6 5 4 1 q r 1 rngHalf 20 =
      some ⟨(List.range 11).map (fun k : ℕ => ((k : ℝ) + 1) * (Real.log 2 / 6)), []⟩ := by
  set φ : ℚ → ℝ := fun x => (x : ℝ) * Real.log 2 with hφ
  have h0 : φ 0 = 0 := by simp [hφ]
  have hadd : ∀ x y : ℚ, φ (x + y) = φ x + φ y := by
    intro x y; simp only [hφ]; push_cast; ring
  have hsub : ∀ x y : ℚ, φ (x - y) = φ x - φ y := by
    intro x y; simp only [hφ]; push_cast; ring
  have hlt : ∀ x y : ℚ, x < y ↔ φ x < φ y := by
    intro x y
    simp only [hφ]
    rw [mul_lt_mul_right logTwo_pos, Rat.cast_lt]
  have htrans := runSlots_map φ h0 hadd hsub hlt (scenario_pa q r) 20
    ⟨⟨[], [], []⟩, ⟨[], []⟩, 0, 12⟩ slotsQ
  rw [qrun] at htrans
  have hslots : slotsQ.map (Option.map φ) =
      ((List.range 11).map fun k => ((k + 1 : ℕ) : ℝ) * (Real.log 2 / 8)).map some ++
        [none] := by
    simp only [slotsQ, List.map_append, List.map_map, List.map_cons, List.map_nil]
    congr 1
    apply List.map_congr_left
    intro k _
    show Option.map φ (some (((k : ℚ) + 1) / 8)) =
      (some ∘ fun k : ℕ => ((k + 1 : ℕ) : ℝ) * (Real.log 2 / 8)) k
    simp only [Option.map_some', hφ]
    congr 1
    push_cast
    ring
  have hinit : (mapState φ ⟨⟨[], [], []⟩, ⟨[], []⟩, 0, 12⟩ : SlotState ℝ) =
      ⟨⟨[], [], []⟩, ⟨[], []⟩, 0, 12⟩ := by
    simp [mapState, mapServers, mapTimes, h0]
  rw [hslots, hinit] at htrans
  have hlist : List.map φ
      ((List.range 11).map (fun j : ℕ => ((j : ℚ) + 1) / 6)) =
      (List.range 11).map (fun k : ℕ => ((k : ℝ) + 1) * (Real.log 2 / 6)) := by
    rw [List.map_map]
    apply List.map_congr_left
    intro k _
    show φ (((k : ℚ) + 1) / 6) = ((k : ℝ) + 1) * (Real.log 2 / 6)
    simp only [hφ]
    push_cast
    ring
  unfold main mainAux replication
  rw [poisson_half]
  simp only []
  rw [htrans]
  simp only [mainAux, Option.map_some']
  show some (mapState φ _).times = _
  simp only [mapState, mapTimes]
  rw [hlist, List.map_nil]

/-! ### Remaining auxiliary lemmas for the claim theorems -/

lemma tick_get (d : α) (sv : Servers α) (s : Station) :
    (tick d sv).get s = tickQueue d (sv.get s) := by
  cases s <;> rfl

/-- The chosen head's first-stage duration is exactly zeroed by the tick. -/
lemma tick_head_zero (sv : Servers α) (s : Station) :
    headDur ((tick (headDur (sv.get s)) sv).get s) = 0 := by
  rw [tick_get]
  cases hq : sv.get s with
  | nil => simp [tickQueue, headDur]
  | cons b t =>
      simp only [tickQueue, headDur]
      cases hbs : b.stages with
      | nil => simp [decHead, stageDur, hbs, hq]
      | cons s0 rest =>
          obtain ⟨s0n, t0⟩ := s0
          simp [decHead, stageDur, hbs, hq]

lemma tickQueue_getElem (d : α) (q : List (Applicant α)) (i : ℕ) (a : Applicant α)
    (h : q[i]? = some a) :
    (tickQueue d q)[i]? =
      some { a with time_spent_total := a.time_spent_total + d,
                    stages := if i = 0 then decHead d a.stages else a.stages } := by
  cases q with
  | nil => simp at h
  | cons b t =>
      cases i with
      | zero =>
          simp only [List.getElem?_cons_zero, Option.some.injEq] at h
          subst h
          simp [tickQueue]
      | succ i =>
          simp only [List.getElem?_cons_succ] at h
          simp only [tickQueue, List.getElem?_cons_succ, List.getElem?_map, h,
            Option.map_some']
          simp [bumpApp]

lemma tickQueue_length (d : α) (q : List (Applicant α)) :
    (tickQueue d q).length = q.length := by
  cases q <;> simp [tickQueue]

/-- One unfolding of the drain loop when a station completes. -/
lemma drain_step (fuel : ℕ) (gap : Option α) (sv : Servers α) (tm : TimesRec α)
    (s : Station) (hsel : selectMin sv gap = some s) :
    drain (fuel + 1) gap sv tm =
      drain fuel (gapSub gap (headDur (sv.get s)))
        (completeHead s (tick (headDur (sv.get s)) sv) tm).1
        (completeHead s (tick (headDur (sv.get s)) sv) tm).2 := by
  rw [drain, hsel]

/-- Disposition flags of all applicants moved by `completeHead` come from the
residents unchanged. -/
lemma completeHead_rejection (s : Station) (sv : Servers α) (tm : TimesRec α) :
    ∀ a ∈ (completeHead s sv tm).1.apps, ∃ b ∈ sv.apps, a.rejection = b.rejection := by
  intro a ha
  rcases completeHead_apps a ha with h' | ⟨b, hb, rfl⟩
  · exact ⟨a, h', rfl⟩
  · exact ⟨b, hb, rfl⟩

/-- Concrete evaluation: `K = 1`, `λ = 2`, unit service rates, `p = 1`,
all uniform draws `1/2`, constant transformed draw `1`, horizon `1`: one
real arrival at `1/2` whose service finishes at the sentinel with sojourn
time `1`, for any `q`, `r`. -/
lemma mainQ_eval (q r : ℚ) : main 1 2 1 1 1 1 q r 1 rngQ 6 = some ⟨[1], []⟩ := by
  norm_num [main, mainAux, replication, poisson_process, poisson_aux, rngQ, runSlots,
    slotStep, drain, selectMin, scan1, ltGap, gapOf, gapSub, headDur, stageDur,
    firstStation, tick, tickQueue, decHead, bumpApp, completeHead, record,
    process_application, expDraw, Servers.get, Servers.set]

/-- Same run with the out-of-range probability `p = 2`: the engine runs
unperturbed. -/
lemma mainQ_eval_p2 (q r : ℚ) : main 1 2 1 1 1 2 q r 1 rngQ 6 = some ⟨[1], []⟩ := by
  norm_num [main, mainAux, replication, poisson_process, poisson_aux, rngQ, runSlots,
    slotStep, drain, selectMin, scan1, ltGap, gapOf, gapSub, headDur, stageDur,
    firstStation, tick, tickQueue, decHead, bumpApp, completeHead, record,
    process_application, expDraw, Servers.get, Servers.set]

/-- Concrete evaluation of one replication (same parameters, `q = r = 0`):
final state after the sentinel slot. -/
lemma replicationQ_eval : replication (2:ℚ) 1 1 1 1 0 0 1 rngQ 6 ⟨[], []⟩ 0 =
    some ⟨⟨[⟨[(.F, 1)], false, 0⟩], [], []⟩, ⟨[1], []⟩, 1/2, 6⟩ := by
  norm_num [replication, poisson_process, poisson_aux, rngQ, runSlots, slotStep, drain,
    selectMin, scan1, ltGap, gapOf, gapSub, headDur, stageDur, firstStation, tick,
    tickQueue, decHead, bumpApp, completeHead, record, process_application, expDraw,
    Servers.get, Servers.set]

/-- Concrete evaluation of one replication with `λ = 1`: the horizon is hit
on the first draw, so there are no real arrivals at all. -/
lemma replicationQ_eval_noarrival :
    poisson_process (1:ℚ) 1 rngQ 6 0 = some ([], 1) ∧
    replication (1:ℚ) 1 1 1 1 0 0 1 rngQ 6 ⟨[], []⟩ 0 =
      some ⟨⟨[⟨[(.F, 1)], false, 0⟩], [], []⟩, ⟨[], []⟩, 0, 3⟩ := by
  constructor <;>
    norm_num [replication, poisson_process, poisson_aux, rngQ, runSlots, slotStep, drain,
      selectMin, scan1, ltGap, gapOf, gapSub, headDur, stageDur, firstStation, tick,
      tickQueue, decHead, bumpApp, completeHead, record, process_application, expDraw,
      Servers.get, Servers.set]

/-- Ghost evaluation of the `λ = 2` replication: two applicants are built and
enqueued by `process_application`, one sojourn time is recorded. -/
lemma greplicationQ_eval :
    ((greplication (2:ℚ) 1 1 1 1 0 0 1 rngQ 6 ⟨[], []⟩ 0 0).map
      (fun st => (st.created, st.times.c.length + st.times.r.length))) = some (2, 1) := by
  norm_num [greplication, poisson_process, poisson_aux, rngQ, grunSlots, gslotStep,
    gdrain, eraseServers, eraseApp, selectMin, scan1, ltGap, gapOf, gapSub, gheadDur,
    headDur, stageDur, firstStation, gtick, gtickQueue, decHead, gcompleteHead, grecord,
    gprocess_application, process_application, expDraw, sumDur, GServers.get,
    GServers.set]

/-! ### Claim theorems -/

/-- C1: the drain-loop invariant claimed in the spec fails on the code.  At
the end of the replication the final `t_prev` (`1/2`) equals the last real
arrival time, but the station queues are NOT all empty: exactly one
applicant — built by the unconditional `process_application` call of the
sentinel slot — remains enqueued. -/
theorem C1_sentinel_leaves_queue_nonempty :
    ((replication (2:ℚ) 1 1 1 1 0 0 1 rngQ 6 ⟨[], []⟩ 0).map
      (fun st => (st.servers.apps.length, st.t_prev))) = some (1, 1/2) ∧
    (1 : ℕ) ≠ 0 := by
  constructor
  · rw [replicationQ_eval]
    simp [Servers.apps]
  · norm_num

/-- C2: `process_application` is invoked and an applicant enqueued even for
the sentinel arrival.  With `λ = 1` the arrival sequence is empty (the first
draw already overshoots the horizon, `poisson_process` returns `[]` having
consumed one draw), yet the replication ends with one applicant in a queue
and the draw stream advanced to position 3: the Stage Router ran for the
sentinel slot. -/
theorem C2_stage_router_runs_for_sentinel :
    poisson_process (1:ℚ) 1 rngQ 6 0 = some ([], 1) ∧
    ((replication (1:ℚ) 1 1 1 1 0 0 1 rngQ 6 ⟨[], []⟩ 0).map
      (fun st => (st.servers.apps.length, st.n))) = some (1, 3) := by
  refine ⟨replicationQ_eval_noarrival.1, ?_⟩
  rw [replicationQ_eval_noarrival.2]
  simp [Servers.apps]

/-- C3: the conservation law fails on the code.  In a replication with one
real arrival, `process_application` builds and enqueues two applicants (the
ghost `created` counter), but only one sojourn time is recorded — the
sentinel-spawned applicant is never processed. -/
theorem C3_created_exceeds_recorded :
    ((greplication (2:ℚ) 1 1 1 1 0 0 1 rngQ 6 ⟨[], []⟩ 0 0).map
      (fun st => (st.created, st.times.c.length + st.times.r.length))) = some (2, 1) ∧
    (2 : ℕ) ≠ 1 ∧
    (replication (2:ℚ) 1 1 1 1 0 0 1 rngQ 6 ⟨[], []⟩ 0).map (fun st => st.times) =
      some ⟨[1], []⟩ := by
  refine ⟨greplicationQ_eval, by norm_num, ?_⟩
  rw [replicationQ_eval]
  rfl

/-- C4 (counterexample): in the §8 scenario (`λ = 8`, `T = 1`, every uniform
draw `0.5`) the claim "exactly one applicant arrives" is false: eleven
applicants arrive (the cumulative arrival times `k·log 2/8` stay below `1`
up to `k = 11`), and eleven — not one — sojourn times are recorded in the
completed bucket. -/
theorem C4_counterexample :
    ((poisson_process (8:ℝ) 1 rngHalf 20 0).map (fun pr => pr.1.length)) = some 11 ∧
    ((poisson_process (8:ℝ) 1 rngHalf 20 0).map (fun pr => pr.1.length)) ≠ some 1 ∧
    ((main 1 8 6 5 4 1 (0:ℝ) 0 1 rngHalf 20).map (fun tm => tm.c.length)) ≠ some 1 := by
  have h1 : ((poisson_process (8:ℝ) 1 rngHalf 20 0).map (fun pr => pr.1.length)) =
      some 11 := by
    rw [poisson_half]
    simp
  refine ⟨h1, by rw [h1]; simp, ?_⟩
  rw [scenario_main 0 0]
  simp

/-- C4 (amended): in the §8 scenario eleven applicants arrive, each is routed
directly to Fingerprint with a single exponential Fingerprint draw
`log 2 / 6`, all eleven are recorded in the completed bucket (sojourn times
`(k+1)·log 2/6`), and the first recorded applicant's total equals its own
single Fingerprint service draw; `q` and `r` are irrelevant. -/
theorem C4_eleven_arrivals_all_completed :
    ((poisson_process (8:ℝ) 1 rngHalf 20 0).map (fun pr => pr.1.length)) = some 11 ∧
    (∀ q r : ℝ, main 1 8 6 5 4 1 q r 1 rngHalf 20 =
      some ⟨(List.range 11).map (fun k : ℕ => ((k : ℝ) + 1) * (Real.log 2 / 6)), []⟩) ∧
    (∀ q r : ℝ, ∀ m, (process_application (6:ℝ) 5 4 1 q r rngHalf m).1.stages =
      [(.F, (1/6) * Real.log 2)]) ∧
    (∀ q r : ℝ, (main 1 8 6 5 4 1 q r 1 rngHalf 20).map (fun tm => tm.c.head?) =
      some (some (expDraw (1/6 : ℝ) rngHalf 13))) := by
  refine ⟨?_, scenario_main, ?_, ?_⟩
  · rw [poisson_half]
    simp
  · intro q r m
    rw [scenario_pa q r m]
    simp only [pa_scenarioQ, mapApp, appF, List.map_cons, List.map_nil]
    norm_num
  · intro q r
    rw [scenario_main q r]
    have hr11 : List.range 11 = 0 :: (List.range 10).map Nat.succ :=
      List.range_succ_eq_map 10
    rw [hr11]
    simp only [List.map_cons, List.head?_cons, Option.map_some']
    have : ((0 : ℕ) : ℝ) + 1 = 1 := by norm_num
    rw [show expDraw (1/6 : ℝ) rngHalf 13 = (1/6) * Real.log 2 by
      simp [expDraw, rngHalf_negLog]]
    norm_num
    ring

/-- C5 (counterexample): with the out-of-range probability `p = 2` the call
does not fail — it runs the replication and returns a non-empty completed
bucket, contradicting "fails fast with an InvalidParameter error before any
replication starts, producing no partial results". -/
theorem C5_counterexample :
    main 1 2 1 1 1 2 (0:ℚ) 0 1 rngQ 6 = some ⟨[1], []⟩ ∧
    main 1 2 1 1 1 2 (0:ℚ) 0 1 rngQ 6 ≠ none := by
  refine ⟨mainQ_eval_p2 0 0, ?_⟩
  rw [mainQ_eval_p2 0 0]
  simp

/-- C5 (amended): `main` performs no input validation at all: for every
`q`, `r` (in range or not) and the invalid `p = 2`, the simulation runs
normally and produces its results. -/
theorem C5_no_input_validation (q r : ℚ) :
    main 1 2 1 1 1 2 q r 1 rngQ 6 = some ⟨[1], []⟩ :=
  mainQ_eval_p2 q r

/-- C6: the Stage Router realises exactly the four-plan decision tree — each
service duration a fresh exponential draw at the rate of the station visited,
disposition fixed at creation — and the engine never changes a disposition:
the bookkeeping tick preserves every applicant's `rejection` flag, and stage
completion moves applicants with their flag unchanged. -/
theorem C6_stage_plan_decision_tree (muf muc muw p q r : α) (rng : Rng α) (n : ℕ) :
    ((rng.u n < p ∧
        process_application muf muc muw p q r rng n =
          ({ stages := [(.F, expDraw (1/muf) rng (n+1))], rejection := false,
             time_spent_total := 0 }, n + 2)) ∨
     (¬ rng.u n < p ∧ rng.u (n+2) < q ∧
        process_application muf muc muw p q r rng n =
          ({ stages := [(.C, expDraw (1/muc) rng (n+1)), (.F, expDraw (1/muf) rng (n+3))],
             rejection := false, time_spent_total := 0 }, n + 4)) ∨
     (¬ rng.u n < p ∧ ¬ rng.u (n+2) < q ∧ rng.u (n+4) < r ∧
        process_application muf muc muw p q r rng n =
          ({ stages := [(.C, expDraw (1/muc) rng (n+1)), (.W, expDraw (1/muw) rng (n+3)),
             (.F, expDraw (1/muf) rng (n+5))], rejection := false,
             time_spent_total := 0 }, n + 6)) ∨
     (¬ rng.u n < p ∧ ¬ rng.u (n+2) < q ∧ ¬ rng.u (n+4) < r ∧
        process_application muf muc muw p q r rng n =
          ({ stages := [(.C, expDraw (1/muc) rng (n+1)), (.W, expDraw (1/muw) rng (n+3))],
             rejection := true, time_spent_total := 0 }, n + 5))) ∧
    (∀ (d : α) (qq : List (Applicant α)),
      (tickQueue d qq).map (fun a => a.rejection) = qq.map (fun a => a.rejection)) ∧
    (∀ (s : Station) (sv : Servers α) (tm : TimesRec α),
      ∀ a ∈ (completeHead s sv tm).1.apps, ∃ b ∈ sv.apps, a.rejection = b.rejection) := by
  refine ⟨?_, ?_, fun s sv tm => completeHead_rejection s sv tm⟩
  · by_cases h1 : rng.u n < p
    · exact Or.inl ⟨h1, by unfold process_application; rw [if_pos h1]⟩
    · by_cases h2 : rng.u (n+2) < q
      · exact Or.inr (Or.inl ⟨h1, h2, by
          unfold process_application; rw [if_neg h1, if_pos h2]⟩)
      · by_cases h3 : rng.u (n+4) < r
        · exact Or.inr (Or.inr (Or.inl ⟨h1, h2, h3, by
            unfold process_application; rw [if_neg h1, if_neg h2, if_pos h3]⟩))
        · exact Or.inr (Or.inr (Or.inr ⟨h1, h2, h3, by
            unfold process_application; rw [if_neg h1, if_neg h2, if_neg h3]⟩))
  · intro d qq
    cases qq with
    | nil => rfl
    | cons b t =>
        simp only [tickQueue, List.map_cons, List.map_map]
        refine congrArg₂ List.cons rfl ?_
        apply List.map_congr_left
        intro x _
        rfl

/-- C7: the frame property of the bookkeeping pass.  In a drain iteration
with elapsed step `d`, every resident applicant of every station gains
exactly `d` of `time_spent_total`; the head of line (`i = 0`) additionally
has only its first-stage duration decremented by `d` (`decHead`), all other
fields and all other applicants' stage plans unchanged; queue lengths are
preserved; and the drain loop indeed applies this tick with `d` equal to the
selected head's remaining duration. -/
theorem C7_tick_frame (d : α) (sv : Servers α) (s : Station) (i : ℕ) (a : Applicant α)
    (h : (sv.get s)[i]? = some a) :
    ((tick d sv).get s)[i]? =
      some { a with time_spent_total := a.time_spent_total + d,
                    stages := if i = 0 then decHead d a.stages else a.stages } ∧
    ((tick d sv).get s).length = (sv.get s).length ∧
    (∀ (fuel : ℕ) (gap : Option α) (tm : TimesRec α) (s' : Station),
      selectMin sv gap = some s' →
      drain (fuel + 1) gap sv tm =
        drain fuel (gapSub gap (headDur (sv.get s')))
          (completeHead s' (tick (headDur (sv.get s')) sv) tm).1
          (completeHead s' (tick (headDur (sv.get s')) sv) tm).2) := by
  refine ⟨?_, ?_, fun fuel gap tm s' hsel => drain_step fuel gap sv tm s' hsel⟩
  · rw [tick_get]
    exact tickQueue_getElem d _ i a h
  · rw [tick_get]
    exact tickQueue_length d _

theorem C7_tick_frame_witness :
    ((⟨[⟨[(.F, 1)], false, 0⟩], [], []⟩ : Servers ℚ).get .F)[0]? =
      some ⟨[(.F, 1)], false, 0⟩ ∧
    ((tick (1:ℚ) ⟨[⟨[(.F, 1)], false, 0⟩], [], []⟩).get .F).length =
      ((⟨[⟨[(.F, 1)], false, 0⟩], [], []⟩ : Servers ℚ).get .F).length :=
  ⟨rfl, (C7_tick_frame 1 ⟨[⟨[(.F, 1)], false, 0⟩], [], []⟩ .F 0 _ rfl).2.1⟩

/-- C8: every recorded sojourn time is non-negative and at least the sum of
that applicant's own drawn stage service durations.  The ghost run pairs
each recorded time with its applicant's creation-time drawn total
(`origSum`, equal by construction to the sum of the stage durations the
plain `process_application` draws), erasure recovers the plain buckets, and
every recorded pair `(t, s)` satisfies `0 ≤ t`, `0 ≤ s`, `s ≤ t`. -/
theorem C8_sojourn_dominates_drawn_total (K : ℕ) (lam muf muc muw p q r T : α)
    (rng : Rng α) (fuel : ℕ) (tm : TimesRec α)
    (hnl : ∀ k, 0 ≤ rng.negLog (rng.u k)) (hf : 0 < muf) (hc : 0 < muc) (hw : 0 < muw)
    (h : main K lam muf muc muw p q r T rng fuel = some tm) :
    ∃ gpr : GTimes α × ℕ, gmain K lam muf muc muw p q r T rng fuel = some gpr ∧
      tm.c = gpr.1.c.map Prod.fst ∧ tm.r = gpr.1.r.map Prod.fst ∧
      (∀ pr ∈ gpr.1.c, 0 ≤ pr.1 ∧ 0 ≤ pr.2 ∧ pr.2 ≤ pr.1) ∧
      (∀ pr ∈ gpr.1.r, 0 ≤ pr.1 ∧ 0 ≤ pr.2 ∧ pr.2 ≤ pr.1) ∧
      (∀ m, (gprocess_application muf muc muw p q r rng m).1.origSum =
        sumDur (process_application muf muc muw p q r rng m).1.stages) := by
  rw [main_erase] at h
  cases hg : gmain K lam muf muc muw p q r T rng fuel with
  | none => rw [hg] at h; simp at h
  | some gpr =>
      rw [hg] at h
      simp only [Option.map_some', Option.some.injEq] at h
      have hok : TimesOK gpr.1 := by
        unfold gmain at hg
        cases hga : gmainAux lam muf muc muw p q r T rng fuel K ⟨[], []⟩ 0 0 with
        | none => rw [hga] at hg; simp at hg
        | some res =>
            rw [hga] at hg
            simp only [Option.map_some', Option.some.injEq] at hg
            have hempty : TimesOK (⟨[], []⟩ : GTimes α) := by
              constructor <;> intro pr hpr <;> simp at hpr
            have := gmainAux_inv hnl hf hc hw K ⟨[], []⟩ 0 0 res hempty hga
            rw [← hg]
            exact this
      refine ⟨gpr, rfl, ?_, ?_, ?_, ?_, fun m => rfl⟩
      · rw [← h]; rfl
      · rw [← h]; rfl
      · intro pr hpr
        have := hok.1 pr hpr
        exact ⟨le_trans this.1 this.2, this.1, this.2⟩
      · intro pr hpr
        have := hok.2 pr hpr
        exact ⟨le_trans this.1 this.2, this.1, this.2⟩

theorem C8_sojourn_witness :
    (∀ k, (0:ℚ) ≤ rngQ.negLog (rngQ.u k)) ∧
    (∃ gpr : GTimes ℚ × ℕ, gmain 1 2 1 1 1 1 0 0 1 rngQ 6 = some gpr ∧
      (⟨[1], []⟩ : TimesRec ℚ).c = gpr.1.c.map Prod.fst ∧
      (⟨[1], []⟩ : TimesRec ℚ).r = gpr.1.r.map Prod.fst ∧
      (∀ pr ∈ gpr.1.c, 0 ≤ pr.1 ∧ 0 ≤ pr.2 ∧ pr.2 ≤ pr.1) ∧
      (∀ pr ∈ gpr.1.r, 0 ≤ pr.1 ∧ 0 ≤ pr.2 ∧ pr.2 ≤ pr.1) ∧
      (∀ m, (gprocess_application (1:ℚ) 1 1 1 0 0 rngQ m).1.origSum =
        sumDur (process_application (1:ℚ) 1 1 1 0 0 rngQ m).1.stages)) :=
  ⟨fun k => by norm_num [rngQ],
   C8_sojourn_dominates_drawn_total 1 2 1 1 1 1 0 0 1 rngQ 6 ⟨[1], []⟩
     (fun k => by norm_num [rngQ]) (by norm_num) (by norm_num) (by norm_num)
     (mainQ_eval 0 0)⟩

/-- C9: with `q = 1` (Case Review always approves) and an open-interval
uniform source, the rejected bucket is empty after every run of `main`. -/
theorem C9_q_one_no_rejections (K : ℕ) (lam muf muc muw p r T : α) (rng : Rng α)
    (fuel : ℕ) (tm : TimesRec α) (hu : ∀ k, rng.u k < 1)
    (h : main K lam muf muc muw p 1 r T rng fuel = some tm) : tm.r = [] := by
  unfold main at h
  cases hm : mainAux lam muf muc muw p 1 r T rng fuel K ⟨[], []⟩ 0 with
  | none => rw [hm] at h; simp at h
  | some res =>
      rw [hm] at h
      simp only [Option.map_some', Option.some.injEq] at h
      rw [← h]
      exact mainAux_rej (pa_norej (le_refl 1) hu) K ⟨[], []⟩ 0 res hm

theorem C9_q_one_witness :
    (∀ k, rngQ.u k < (1:ℚ)) ∧ (⟨[1], []⟩ : TimesRec ℚ).r = [] :=
  ⟨fun k => by norm_num [rngQ],
   C9_q_one_no_rejections 1 2 1 1 1 1 0 1 rngQ 6 ⟨[1], []⟩
     (fun k => by norm_num [rngQ]) (mainQ_eval 1 0)⟩

/-- C10: remaining stage durations never become negative.  (i) In every drain
iteration the selected head's first-stage duration is exactly zeroed by the
tick and all durations stay non-negative (the chosen `δ` is the global
minimum); (ii) the drain loop preserves non-negativity of all durations;
(iii) so does the whole arrival loop, given positive rates and non-negative
transformed draws. -/
theorem C10_durations_never_negative :
    (∀ (sv : Servers α) (gap : Option α) (s : Station),
      (∀ a ∈ sv.apps, ∀ st ∈ a.stages, 0 ≤ st.2) → selectMin sv gap = some s →
      headDur ((tick (headDur (sv.get s)) sv).get s) = 0 ∧
      (∀ a ∈ (tick (headDur (sv.get s)) sv).apps, ∀ st ∈ a.stages, 0 ≤ st.2)) ∧
    (∀ (fuel : ℕ) (gap : Option α) (sv sv' : Servers α) (tm tm' : TimesRec α),
      (∀ a ∈ sv.apps, ∀ st ∈ a.stages, 0 ≤ st.2) →
      drain fuel gap sv tm = some (sv', tm') →
      ∀ a ∈ sv'.apps, ∀ st ∈ a.stages, 0 ≤ st.2) ∧
    (∀ (muf muc muw p q r : α) (rng : Rng α) (fuel : ℕ)
      (slots : List (Option α)) (st st' : SlotState α),
      (∀ k, 0 ≤ rng.negLog (rng.u k)) → 0 < muf → 0 < muc → 0 < muw →
      (∀ a ∈ st.servers.apps, ∀ stg ∈ a.stages, 0 ≤ stg.2) →
      runSlots muf muc muw p q r rng fuel st slots = some st' →
      ∀ a ∈ st'.servers.apps, ∀ stg ∈ a.stages, 0 ≤ stg.2) := by
  refine ⟨?_, fun fuel gap sv sv' tm tm' hinv h => drain_durs hinv h,
    fun muf muc muw p q r rng fuel slots st st' hnl hf hc hw hinv h =>
      runSlots_durs (fun k => pa_durs hnl hf hc hw k) slots st st' hinv h⟩
  intro sv gap s hinv hsel
  obtain ⟨hne, _, hmin⟩ := selectMin_spec hsel
  exact ⟨tick_head_zero sv s, tick_durs hmin hinv⟩

theorem C10_durations_witness :
    (∀ a ∈ (⟨[⟨[(.F, 1)], false, 0⟩], [], []⟩ : Servers ℚ).apps,
      ∀ st ∈ a.stages, 0 ≤ st.2) ∧
    selectMin (⟨[⟨[(.F, 1)], false, 0⟩], [], []⟩ : Servers ℚ) (some 2) = some .F ∧
    headDur ((tick
      (headDur ((⟨[⟨[(.F, 1)], false, 0⟩], [], []⟩ : Servers ℚ).get .F))
      ⟨[⟨[(.F, 1)], false, 0⟩], [], []⟩).get .F) = 0 := by
  have hinv : ∀ a ∈ (⟨[⟨[(.F, 1)], false, 0⟩], [], []⟩ : Servers ℚ).apps,
      ∀ st ∈ a.stages, 0 ≤ st.2 := by
    intro a ha st hst
    simp only [Servers.apps, List.append_nil, List.mem_singleton] at ha
    subst ha
    simp only [List.mem_singleton] at hst
    subst hst
    norm_num
  have hsel : selectMin (⟨[⟨[(.F, 1)], false, 0⟩], [], []⟩ : Servers ℚ) (some 2) =
      some .F := by
    norm_num [selectMin, scan1, ltGap, stageDur]
  exact ⟨hinv, hsel,
    ((@C10_durations_never_negative ℚ _).1 _ (some 2) .F hinv hsel).1⟩

end SPF
